/-
Verification of the dux disk-usage analyzer core against its specification.

This file gives a shallow embedding, in Lean 4, of the data model and the
operations of the dux repository (crates dux-core and dux-cli), and proves
the specified properties about them.

Modelling conventions:
  * NodeId is a plain natural number (the arena index); NodeId::ROOT = 0.
  * u64 quantities (sizes, file counts) are Nat.  Rust's
    u64::saturating_sub is exactly Nat truncated subtraction.
  * PathBuf is modelled as a list of components (List String); the string
    form produced by to_string_lossy is the components interleaved with
    the separator character.  Path equality and Path::starts_with are
    component-wise, as in Rust.
  * The arena Vec of Option slots is a List (Option TreeNode); Vec
    indexing is List indexing.
  * Loops whose termination rests on tree well-formedness (depth-first
    walks over children, parent-chain walks) take explicit fuel; the
    theorems that need them carry the well-formedness hypotheses under
    which the fuel is shown adequate.
-/
import Mathlib

set_option maxHeartbeats 1000000

namespace Dux

/-! ## Strings and paths

Rust str::contains is substring containment; PathBuf is a component list.
leadsWith a b decides whether a is a leading run of b (List prefix),
containsSeq pat s decides whether pat occurs contiguously inside s. -/

def leadsWith {α : Type} [DecidableEq α] : List α → List α → Bool
  | [], _ => true
  | _ :: _, [] => false
  | a :: as, b :: bs => a = b && leadsWith as bs

def containsSeq {α : Type} [DecidableEq α] (pat : List α) : List α → Bool
  | [] => pat.isEmpty
  | a :: rest => leadsWith pat (a :: rest) || containsSeq pat rest

/-- A path is a list of components, as decomposed by Rust's Path. -/
abbrev DPath := List String

/-- The display (to_string_lossy) form of a path: components joined by the
separator, as a character list. -/
def pathChars : DPath → List Char
  | [] => []
  | [c] => c.toList
  | c :: c2 :: rest => c.toList ++ '/' :: pathChars (c2 :: rest)

/-! ## Tree data model (dux-core/src/tree/node.rs) -/

inductive NodeKind where
  | Directory
  | File
  | Symlink
  | Error
deriving DecidableEq, Repr

def NodeKind.is_directory : NodeKind → Bool
  | .Directory => true
  | _ => false

/-- A node in the disk tree (struct TreeNode).  The mtime field is
Modelled from the spec: node.rs as provided omits the optional
modification-time field that scanner/walker.rs writes and the cache and
views read; spec §3 defines it as an optional wall-clock modification
time, here a Nat timestamp. -/
structure TreeNode where
  id : Nat
  name : String
  kind : NodeKind
  size : Nat
  file_count : Nat
  parent : Option Nat
  children : List Nat
  depth : Nat
  is_expanded : Bool
  path : DPath
  mtime : Option Nat
deriving DecidableEq, Repr

/-- TreeNode::new.  file_count is 1 for File and 0 otherwise; the root
(depth 0) starts expanded; mtime starts absent. -/
def TreeNode.new (id : Nat) (name : String) (kind : NodeKind) (path : DPath)
    (parent : Option Nat) (depth : Nat) : TreeNode :=
  { id := id
    name := name
    kind := kind
    size := 0
    file_count := if kind = NodeKind.File then 1 else 0
    parent := parent
    children := []
    depth := depth
    is_expanded := depth = 0
    path := path
    mtime := none }

/-! ## Tree arena (dux-core/src/tree/arena.rs) -/

structure DiskTree where
  nodes : List (Option TreeNode)
  root_path : DPath
deriving DecidableEq, Repr

namespace DiskTree

/-- DiskTree::new: slot 0 holds the root directory named after the last
component of root_path (or its full display form if it has none). -/
def new (root_path : DPath) : DiskTree :=
  let root_name := match root_path.getLast? with
    | some n => n
    | none => String.mk (pathChars root_path)
  { nodes := [some (TreeNode.new 0 root_name NodeKind.Directory root_path none 0)]
    root_path := root_path }

/-- DiskTree::get: the node if the slot exists and is live. -/
def get (t : DiskTree) (id : Nat) : Option TreeNode :=
  match t.nodes[id]? with
  | some (some n) => some n
  | _ => none

/-- Overwrite slot id with a live node (no-op beyond the arena end,
matching Vec indexing guarded by get_mut). -/
def setNode (t : DiskTree) (id : Nat) (nd : TreeNode) : DiskTree :=
  { t with nodes := t.nodes.set id (some nd) }

/-- The get_mut - and - update pattern: modify the node in slot id if it is
live, otherwise leave the tree unchanged. -/
def modifyNode (t : DiskTree) (id : Nat) (f : TreeNode → TreeNode) : DiskTree :=
  match t.get id with
  | some nd => t.setNode id (f nd)
  | none => t

/-- DiskTree::add_node.  The node is pushed first; the child is then
registered in the parent's children only if the parent slot is live. -/
def add_node (t : DiskTree) (name : String) (kind : NodeKind) (path : DPath)
    (parent : Nat) : DiskTree × Nat :=
  let parent_depth := match t.get parent with
    | some n => n.depth
    | none => 0
  let id := t.nodes.length
  let node := TreeNode.new id name kind path (some parent) (parent_depth + 1)
  let t1 : DiskTree := { t with nodes := t.nodes ++ [some node] }
  let t2 := t1.modifyNode parent (fun p => { p with children := p.children ++ [id] })
  (t2, id)

/-- DiskTree::len. -/
def len (t : DiskTree) : Nat := t.nodes.length

/-- DiskTree::live_count. -/
def live_count (t : DiskTree) : Nat :=
  (t.nodes.filter Option.isSome).length

/-- DiskTree::set_size. -/
def set_size (t : DiskTree) (id : Nat) (size : Nat) : DiskTree :=
  t.modifyNode id (fun nd => { nd with size := size })

/-- The sum of the sizes of the live nodes among a children list (a dead
child contributes 0), as the aggregation loop computes it. -/
def childSizeSum (t : DiskTree) (cs : List Nat) : Nat :=
  cs.foldl (fun acc c => acc + (match t.get c with | some ch => ch.size | none => 0)) 0

/-- The sum of the file_counts of the live nodes among a children list. -/
def childFileSum (t : DiskTree) (cs : List Nat) : Nat :=
  cs.foldl (fun acc c => acc + (match t.get c with | some ch => ch.file_count | none => 0)) 0

/-- One step of aggregate_sizes: if slot i is a live directory, its size
and file_count become the sums over its (live) children, read from the
current state. -/
def aggStep (t : DiskTree) (i : Nat) : DiskTree :=
  match t.get i with
  | none => t
  | some n =>
    if n.kind.is_directory then
      t.modifyNode i (fun nd =>
        { nd with size := childSizeSum t n.children, file_count := childFileSum t n.children })
    else t

/-- DiskTree::aggregate_sizes: process slots in reverse index order. -/
def aggregate_sizes (t : DiskTree) : DiskTree :=
  ((List.range t.nodes.length).reverse).foldl aggStep t

/-- The snapshot of all slot sizes taken by sort_by_size (tombstones
contribute 0), indexed by NodeId. -/
def sizeSnapshot (t : DiskTree) : List Nat :=
  t.nodes.map (fun o => match o with | some n => n.size | none => 0)

/-- The sort key sort_by_size uses for a child id: the snapshot entry, or
0 when the id is out of range. -/
def snapKey (sizes : List Nat) (c : Nat) : Nat := (sizes[c]?).getD 0

/-- Stable insertion of x in front of the first element with a strictly
smaller key (descending order; x goes before elements of equal key only
when they come later, so insertion order is preserved on ties). -/
def insOrd {α : Type} (key : α → Nat) (x : α) : List α → List α
  | [] => [x]
  | y :: ys => if key y ≤ key x then x :: y :: ys else y :: insOrd key x ys

/-- Stable sort by key, descending.  Rust's slice::sort_by is a stable
sort under the comparator key_b.cmp(key_a); a stable sort's output is
uniquely determined by the comparator, so this insertion sort computes
exactly the list sort_by produces. -/
def sortByKeyDesc {α : Type} (key : α → Nat) : List α → List α
  | [] => []
  | x :: xs => insOrd key x (sortByKeyDesc key xs)

/-- DiskTree::sort_by_size: snapshot all slot sizes, then sort every live
node's children by snapshot size, descending. -/
def sort_by_size (t : DiskTree) : DiskTree :=
  let sizes := t.sizeSnapshot
  { t with nodes := t.nodes.map (fun o => match o with
      | some n => some { n with children := sortByKeyDesc (snapKey sizes) n.children }
      | none => none) }

/-- DiskTree::toggle_expanded (no-op for non-directories). -/
def toggle_expanded (t : DiskTree) (id : Nat) : DiskTree :=
  t.modifyNode id (fun nd =>
    if nd.kind.is_directory then { nd with is_expanded := !nd.is_expanded } else nd)

/-- DiskTree::set_expanded (no-op for non-directories). -/
def set_expanded (t : DiskTree) (id : Nat) (b : Bool) : DiskTree :=
  t.modifyNode id (fun nd =>
    if nd.kind.is_directory then { nd with is_expanded := b } else nd)

/-- DiskTree::collect_visible: push the id, then recurse into the
children when the node is live and expanded.  The Rust recursion
terminates on well-formed trees (children have strictly larger indices);
the fuel makes that termination explicit and is adequate whenever the
ChildrenAbove invariant below holds. -/
def collect_visible (t : DiskTree) : Nat → Nat → List Nat
  | 0, id => [id]
  | fuel + 1, id =>
    id :: (match t.get id with
      | some n =>
        if n.is_expanded then
          n.children.flatMap (fun c => collect_visible t fuel c)
        else []
      | none => [])

/-- DiskTree::visible_nodes. -/
def visible_nodes (t : DiskTree) (root : Nat) : List Nat :=
  collect_visible t t.nodes.length root

/-- DiskTree::path_to_node: climb the parent chain, then reverse.  Fuel
bounds the climb; it is adequate whenever parents have smaller indices. -/
def pathToNodeAux (t : DiskTree) : Nat → Option Nat → List Nat
  | 0, _ => []
  | _, none => []
  | fuel + 1, some id =>
    id :: pathToNodeAux t fuel (match t.get id with
      | some n => n.parent
      | none => none)

def path_to_node (t : DiskTree) (id : Nat) : List Nat :=
  (pathToNodeAux t (t.nodes.length + 1) (some id)).reverse

/-- DiskTree::collect_descendants: for each child, push it, then recurse
into it (a dead child contributes only itself). -/
def collectDesc (t : DiskTree) : Nat → Nat → List Nat
  | 0, _ => []
  | fuel + 1, id =>
    match t.get id with
    | none => []
    | some n => n.children.flatMap (fun c => c :: collectDesc t fuel c)

/-- Tombstone a slot (no-op beyond the arena end, matching the guarded
get_mut in the source). -/
def clearNode (t : DiskTree) (id : Nat) : DiskTree :=
  { t with nodes := t.nodes.set id none }

/-- The size/file_count decrement walk of remove_node: from the removed
node's parent up to the root, subtracting with saturating arithmetic
(Nat subtraction), stopping at a dead slot or at the root. -/
def subtractChain (t : DiskTree) (size fc : Nat) : Nat → Option Nat → DiskTree
  | _, none => t
  | 0, some _ => t
  | fuel + 1, some nid =>
    match t.get nid with
    | some nd =>
      subtractChain
        (t.setNode nid { nd with size := nd.size - size, file_count := nd.file_count - fc })
        size fc fuel nd.parent
    | none => t

/-- The retain-based unlink of remove_node: drop id from the parent's
children when a parent id is present and live. -/
def unlinkFromParent (t : DiskTree) (id : Nat) : Option Nat → DiskTree
  | some pid => t.modifyNode pid
      (fun p => { p with children := p.children.filter (fun c => c ≠ id) })
  | none => t

/-- DiskTree::remove_node: refuse the root and dead slots (returning 0),
otherwise unlink from the parent, tombstone the node and all collected
descendants, and propagate the decrement up the ancestor chain.  Returns
the freed size. -/
def remove_node (t : DiskTree) (id : Nat) : DiskTree × Nat :=
  if id = 0 then (t, 0)
  else
    match t.get id with
    | none => (t, 0)
    | some node =>
      let t1 := unlinkFromParent t id node.parent
      let to_remove := id :: collectDesc t1 t1.nodes.length id
      let t2 := to_remove.foldl clearNode t1
      (subtractChain t2 node.size node.file_count t2.nodes.length node.parent, node.size)

/-- One iteration of the rebuild_paths loop: a live non-root slot whose
parent slot is live gets path = parent.path joined with its name. -/
def rebuildStep (t : DiskTree) (i : Nat) : DiskTree :=
  match t.get i with
  | none => t
  | some node =>
    match node.parent with
    | some pid =>
      match t.get pid with
      | some p => t.setNode i { node with path := p.path ++ [node.name] }
      | none => t
    | none => t

/-- DiskTree::rebuild_paths: set the root's path to root_path, then
process slots 1..len in ascending order. -/
def rebuild_paths (t : DiskTree) : DiskTree :=
  let t0 := t.modifyNode 0 (fun r => { r with path := t.root_path })
  (List.range' 1 (t.nodes.length - 1)).foldl rebuildStep t0

/-- DiskTree::iter: live nodes in slot order. -/
def iterNodes (t : DiskTree) : List TreeNode :=
  t.nodes.filterMap id

/-- DiskTree::root: Rust panics when slot 0 is dead; every tree the
program builds keeps the root alive, and the default here is never
reached in the proved theorems. -/
def rootNode (t : DiskTree) : TreeNode :=
  (t.get 0).getD (TreeNode.new 0 "" NodeKind.Directory [] none 0)

/-- DiskTree::total_size. -/
def total_size (t : DiskTree) : Nat := t.rootNode.size

/-- DiskTree::total_files. -/
def total_files (t : DiskTree) : Nat := t.rootNode.file_count

end DiskTree

/-! ## Virtual-path filter (dux-core/src/scanner/walker.rs) -/

/-- The fixed SLOW_PATTERNS table, as character lists. -/
def SLOW_PATTERNS : List (List Char) :=
  [ "/Volumes/".toList
  , "/.Spotlight-V100".toList
  , "/.fseventsd".toList
  , "/.DocumentRevisions-V100".toList
  , "/System/Volumes/Data/.Spotlight-V100".toList
  , "CoreSimulator/Volumes".toList
  , "/.MobileBackups".toList
  , ".timemachine".toList
  , "/dev/".toList
  , "/proc/".toList
  , "/sys/".toList
  , "/private/var/folders".toList
  , "/private/var/db/dyld".toList
  , "/private/var/db/uuidtext".toList ]

/-- is_virtual_or_slow_path: never filter the root or an ancestor of the
root; otherwise filter when some pattern occurs in the path's display
string but not in the root's.  Path equality and Path::starts_with are
component-wise; str::contains is substring containment on the display
form. -/
def is_virtual_or_slow_path (path root_path : DPath) : Bool :=
  if path = root_path || leadsWith path root_path then false
  else
    let path_str := pathChars path
    let root_str := pathChars root_path
    SLOW_PATTERNS.any (fun pat => containsSeq pat path_str && !containsSeq pat root_str)

/-! ## Derived views (dux-cli/src/app/views.rs) -/

inductive ArtifactKind where
  | Rust
  | Xcode
  | Node
  | Generic
  | Gradle
  | Python
  | CocoaPods
  | NextNuxt
  | Vendor
  | Cache
deriving DecidableEq, Repr

def classify_artifact (name : String) : Option ArtifactKind :=
  if name = "target" then some ArtifactKind.Rust
  else if name = "DerivedData" || name = "Build" then some ArtifactKind.Xcode
  else if name = "node_modules" then some ArtifactKind.Node
  else if name = "build" || name = "dist" then some ArtifactKind.Generic
  else if name = ".gradle" then some ArtifactKind.Gradle
  else if name = "__pycache__" || name = ".tox" || name = ".venv" || name = "venv" then
    some ArtifactKind.Python
  else if name = "Pods" then some ArtifactKind.CocoaPods
  else if name = ".next" || name = ".nuxt" then some ArtifactKind.NextNuxt
  else if name = "vendor" then some ArtifactKind.Vendor
  else if name = ".cache" then some ArtifactKind.Cache
  else none

inductive StaleThreshold where
  | OneDay
  | SevenDays
  | ThirtyDays
  | NinetyDays
  | All
deriving DecidableEq, Repr

/-- StaleThreshold::duration, in seconds (None for All). -/
def StaleThreshold.duration : StaleThreshold → Option Nat
  | .OneDay => some 86400
  | .SevenDays => some (7 * 86400)
  | .ThirtyDays => some (30 * 86400)
  | .NinetyDays => some (90 * 86400)
  | .All => none

def StaleThreshold.next : StaleThreshold → StaleThreshold
  | .OneDay => .SevenDays
  | .SevenDays => .ThirtyDays
  | .ThirtyDays => .NinetyDays
  | .NinetyDays => .All
  | .All => .OneDay

/-- size_percentage (dux-core/src/size.rs), over exact rationals in place
of f64: the claims proved here never depend on float rounding, only on
both sides computing the same value from the same inputs. -/
def size_percentage (size total : Nat) : ℚ :=
  if total = 0 then 0 else ((size : ℚ) / (total : ℚ)) * 100

structure LargeFileEntry where
  node_id : Nat
  relative_path : DPath
  size : Nat
  percentage : ℚ
deriving DecidableEq, Repr

structure BuildArtifactEntry where
  node_id : Nat
  relative_path : DPath
  size : Nat
  percentage : ℚ
  kind : ArtifactKind
  is_stale : Bool
  newest_mtime : Option Nat
deriving DecidableEq, Repr

structure ComputedViews where
  large_files : List LargeFileEntry
  build_artifacts : List BuildArtifactEntry
  dirty : Bool
  stale_threshold : StaleThreshold
deriving DecidableEq, Repr

/-- Path::strip_prefix(root).unwrap_or(path): drop the leading root
components when root is a component-wise prefix, else the full path. -/
def stripLeading (root p : DPath) : DPath :=
  if leadsWith root p then p.drop root.length else p

/-- The staleness computation shared by rebuild_build_artifacts and
cycle_stale_threshold: All is always stale, an absent newest_mtime is
never stale, an mtime in the future of now is never stale
(SystemTime::duration_since fails), otherwise stale iff the age exceeds
the threshold. -/
def staleCalc (th : StaleThreshold) (now : Nat) (nm : Option Nat) : Bool :=
  match th.duration with
  | none => true
  | some dur =>
    match nm with
    | none => false
    | some mt => if mt ≤ now then decide (now - mt > dur) else false

/-- ComputedViews::newest_descendant_mtime: an explicit-stack depth-first
walk maximising mtime over the node and its descendants.  Children are
pushed in order onto the stack (head = top of the Vec).  The fuel equals
the arena size plus one, which suffices on well-formed trees where every
node occurs in at most one children list. -/
def newestDescAux (t : DiskTree) : Nat → List Nat → Option Nat → Option Nat
  | 0, _, newest => newest
  | _, [], newest => newest
  | fuel + 1, id :: stack, newest =>
    match t.get id with
    | some n =>
      let newest' := match n.mtime with
        | some mt =>
          some (match newest with
            | some prev => max prev mt
            | none => mt)
        | none => newest
      newestDescAux t fuel (n.children.reverse ++ stack) newest'
    | none => newestDescAux t fuel stack newest

def newest_descendant_mtime (t : DiskTree) (root : Nat) : Option Nat :=
  newestDescAux t (t.nodes.length + 1) [root] none

/-- The ancestor-artifact suppression walk of rebuild_build_artifacts:
true when some live ancestor's name classifies as an artifact.  The walk
stops at a dead parent slot or at the root. -/
def hasArtifactAncestor (t : DiskTree) : Nat → Option Nat → Bool
  | _, none => false
  | 0, some _ => false
  | fuel + 1, some pid =>
    match t.get pid with
    | some p =>
      if (classify_artifact p.name).isSome then true
      else hasArtifactAncestor t fuel p.parent
    | none => false

/-- ComputedViews::rebuild_large_files.  SystemTime::now is irrelevant
here; sorting is by size descending, stable. -/
def rebuild_large_files (t : DiskTree) : List LargeFileEntry :=
  let total := t.total_size
  let root_path := t.root_path
  let entries := (t.iterNodes.filter (fun n => n.kind = NodeKind.File)).map
    (fun n => { node_id := n.id
                relative_path := stripLeading root_path n.path
                size := n.size
                percentage := size_percentage n.size total : LargeFileEntry })
  DiskTree.sortByKeyDesc (fun (e : LargeFileEntry) => e.size) entries

/-- The per-node candidate computation of rebuild_build_artifacts: keep
a live directory whose name classifies as an artifact and none of whose
live ancestors classifies, computing its newest descendant mtime and its
staleness at the given threshold and now. -/
def artifactEntry (t : DiskTree) (th : StaleThreshold) (now : Nat)
    (n : TreeNode) : Option BuildArtifactEntry :=
  if !n.kind.is_directory then none
  else match classify_artifact n.name with
    | none => none
    | some kind =>
      if hasArtifactAncestor t t.nodes.length n.parent then none
      else
        let nm := newest_descendant_mtime t n.id
        some { node_id := n.id
               relative_path := stripLeading t.root_path n.path
               size := n.size
               percentage := size_percentage n.size t.total_size
               kind := kind
               is_stale := staleCalc th now nm
               newest_mtime := nm : BuildArtifactEntry }

/-- ComputedViews::rebuild_build_artifacts.  SystemTime::now() is passed
in as the parameter now. -/
def rebuild_build_artifacts (t : DiskTree) (th : StaleThreshold) (now : Nat) :
    List BuildArtifactEntry :=
  DiskTree.sortByKeyDesc (fun (e : BuildArtifactEntry) => e.size)
    (t.iterNodes.filterMap (artifactEntry t th now))

/-- ComputedViews::rebuild. -/
def ComputedViews.rebuild (v : ComputedViews) (t : DiskTree) (now : Nat) : ComputedViews :=
  { v with large_files := rebuild_large_files t
           build_artifacts := rebuild_build_artifacts t v.stale_threshold now
           dirty := false }

/-- ComputedViews::cycle_stale_threshold: advance the threshold and
update every entry's is_stale in place from its stored newest_mtime;
the tree is not consulted.  SystemTime::now() is the parameter now. -/
def ComputedViews.cycle_stale_threshold (v : ComputedViews) (now : Nat) : ComputedViews :=
  let th := v.stale_threshold.next
  { v with stale_threshold := th
           build_artifacts := v.build_artifacts.map
             (fun e => { e with is_stale := staleCalc th now e.newest_mtime }) }

/-! ## Multi-selection dedupe (dux-cli/src/app/state.rs) -/

/-- The ancestor walk of dedup_selected_nodes: from id, repeatedly step
to the parent; report true as soon as a parent id is in the selection
set; stop at the root, at a dead slot, or when fuel runs out (the fuel
is adequate whenever parents have smaller indices). -/
def ancestorSelected (t : DiskTree) (selected : List Nat) : Nat → Nat → Bool
  | 0, _ => false
  | fuel + 1, current =>
    match t.get current with
    | some node =>
      match node.parent with
      | some parent =>
        if selected.contains parent then true
        else ancestorSelected t selected fuel parent
      | none => false
    | none => false

/-- AppState::dedup_selected_nodes: keep each selected id whose ancestor
walk finds no selected ancestor.  The HashSet iteration order is
modelled by the list order of selected. -/
def dedup_selected_nodes (t : DiskTree) (selected : List Nat) : List Nat :=
  selected.filter (fun id => !ancestorSelected t selected t.nodes.length id)

/-! ## Scan messages and the scan loop (dux-core/src/scanner) -/

structure ScanProgress where
  files_scanned : Nat
  dirs_scanned : Nat
  bytes_scanned : Nat
  errors : Nat
  current_path : Option DPath
deriving DecidableEq, Repr

inductive ScanMessage where
  | StartedDirectory : DPath → ScanMessage
  | Progress : ScanProgress → ScanMessage
  | Finalizing : ScanMessage
  | Completed : ScanMessage
  | Cancelled : ScanMessage
  | Error : String → ScanMessage
deriving DecidableEq, Repr

/-- Metadata of one walked entry, as the scanner consumes it: device id,
the get_disk_usage size, and the (fallible) modification time. -/
structure EntryMeta where
  dev : Nat
  size : Nat
  mtime : Option Nat
deriving DecidableEq, Repr

/-- One yielded walker entry; meta is none when entry.metadata() fails. -/
structure WalkEntry where
  path : DPath
  is_dir : Bool
  is_symlink : Bool
  meta : Option EntryMeta
deriving DecidableEq, Repr

/-- A walker yield: an entry or a walker error. -/
inductive WalkItem where
  | ok : WalkEntry → WalkItem
  | err : WalkItem
deriving DecidableEq, Repr

/-- The consumer-side state of scan_sync: the tree, the path-to-NodeId
map (a HashMap, modelled as an assoc list where inserts prepend), and
the shared progress counters. -/
structure ScanState where
  tree : DiskTree
  path_to_id : List (DPath × Nat)
  files_scanned : Nat
  dirs_scanned : Nat
  bytes_scanned : Nat
  errors : Nat
  current_path : Option DPath
deriving Repr

def ScanState.progress (st : ScanState) : ScanProgress :=
  { files_scanned := st.files_scanned
    dirs_scanned := st.dirs_scanned
    bytes_scanned := st.bytes_scanned
    errors := st.errors
    current_path := st.current_path }

/-- HashMap::get on the assoc-list model: first match wins (inserts
prepend, so the latest insert for a path shadows older ones). -/
def assocFind (m : List (DPath × Nat)) (p : DPath) : Option Nat :=
  match m with
  | [] => none
  | (q, id) :: rest => if q = p then some id else assocFind rest p

/-- The body of the scan loop for one yielded item, mirroring the source
statement by statement: walker errors and metadata failures bump the
error counter; the root itself is skipped; a child on a different device
is dropped when same_filesystem is on; otherwise the node is added under
the parent found in the path map (orphans are skipped silently),
directories are indexed and get their mtime, and counters advance. -/
def processEntry (same_fs : Bool) (root_path : DPath) (root_dev : Nat)
    (st : ScanState) : WalkItem → ScanState
  | .err => { st with errors := st.errors + 1 }
  | .ok e =>
    if e.path = root_path then st
    else
      match e.meta with
      | none => { st with errors := st.errors + 1 }
      | some m =>
        if same_fs && m.dev ≠ root_dev then st
        else
          let kind := if e.is_dir then NodeKind.Directory
            else if e.is_symlink then NodeKind.Symlink
            else NodeKind.File
          match (match e.path with | [] => none | _ :: _ => some e.path.dropLast) with
          | none => st
          | some parent_path =>
            match assocFind st.path_to_id parent_path with
            | none => st
            | some parent_id =>
              let name := match e.path.getLast? with
                | some n => n
                | none => String.mk (pathChars e.path)
              let added := st.tree.add_node name kind e.path parent_id
              let t1 := added.1
              let node_id := added.2
              if kind = NodeKind.Directory then
                let t2 := match m.mtime with
                  | some mt => t1.modifyNode node_id (fun nd => { nd with mtime := some mt })
                  | none => t1
                { st with tree := t2.set_size node_id m.size
                          path_to_id := (e.path, node_id) :: st.path_to_id
                          dirs_scanned := st.dirs_scanned + 1
                          bytes_scanned := st.bytes_scanned + m.size
                          current_path := some e.path }
              else
                { st with tree := t1.set_size node_id m.size
                          files_scanned := st.files_scanned + 1
                          bytes_scanned := st.bytes_scanned + m.size
                          current_path := some e.path }

/-- The scan loop of Scanner::scan_sync.  cancelled k models the shared
cancellation flag as observed at the top of iteration k; on observation
the loop emits Cancelled and returns the partial tree at once.  When the
walker is exhausted the loop emits Finalizing, runs aggregate_sizes and
sort_by_size, and emits a final Progress snapshot then Completed.  Only
the messages sent by the scan loop itself appear in the trace; the
heartbeat thread sends Progress snapshots only. -/
def scanLoop (same_fs : Bool) (root_path : DPath) (root_dev : Nat)
    (cancelled : Nat → Bool) :
    Nat → ScanState → List WalkItem → List ScanMessage × DiskTree
  | _, st, [] =>
    ([ScanMessage.Finalizing, ScanMessage.Progress st.progress, ScanMessage.Completed],
      st.tree.aggregate_sizes.sort_by_size)
  | k, st, item :: rest =>
    if cancelled k then ([ScanMessage.Cancelled], st.tree)
    else scanLoop same_fs root_path root_dev cancelled (k + 1)
      (processEntry same_fs root_path root_dev st item) rest

/-- The initial consumer state of scan_sync: a fresh tree rooted at
root_path whose root carries the root directory's mtime when it could be
read, and the path map seeded with the root. -/
def initialScanState (root_path : DPath) (root_mtime : Option Nat) : ScanState :=
  let tree0 := DiskTree.new root_path
  let tree1 := match root_mtime with
    | some mt => tree0.modifyNode 0 (fun nd => { nd with mtime := some mt })
    | none => tree0
  { tree := tree1
    path_to_id := [(root_path, 0)]
    files_scanned := 0
    dirs_scanned := 0
    bytes_scanned := 0
    errors := 0
    current_path := none }

/-- Scanner::scan_sync: StartedDirectory is emitted first, then the loop
runs over the walker's yields. -/
def scan_sync (same_fs : Bool) (root_path : DPath) (root_dev : Nat)
    (root_mtime : Option Nat) (entries : List WalkItem) (cancelled : Nat → Bool) :
    List ScanMessage × DiskTree :=
  let out := scanLoop same_fs root_path root_dev cancelled 0
    (initialScanState root_path root_mtime) entries
  (ScanMessage.StartedDirectory root_path :: out.1, out.2)

/-! ## Error type (dux-core/src/error.rs)

The Cache variant is Modelled from the spec: error.rs as provided lacks
it, while cache/mod.rs constructs crate::DuxError::Cache and spec §7
lists Cache(text) in the taxonomy. -/

inductive DuxError where
  | PathNotFound : DPath → DuxError
  | NotADirectory : DPath → DuxError
  | PermissionDenied : DPath → DuxError
  | Io : String → DuxError
  | Cancelled : DuxError
  | Cache : String → DuxError
deriving DecidableEq, Repr

/-! ## Cache codec (dux-core/src/cache)

The framing (magic, version, length fields, trailing CRC32) follows
cache/mod.rs byte for byte.  The two payloads are postcard-serialized in
the source; postcard is an external crate and the serde derives for
TreeNode are absent from the provided sources, so the payload codec is
Modelled from the spec: a concrete self-describing binary encoding with
variable-length integers, tagged options and length-prefixed sequences,
in which node paths are omitted and rebuilt on load (spec §4.3). -/

def CACHE_MAGIC : List Nat := [68, 85, 88, 67]

def CACHE_VERSION : Nat := 1

structure CachedScanConfig where
  follow_symlinks : Bool
  same_filesystem : Bool
  max_depth : Option Nat
deriving DecidableEq, Repr

structure CacheMetadata where
  version : Nat
  root_path : DPath
  scan_time : Nat
  root_mtime : Nat
  total_size : Nat
  node_count : Nat
  config : CachedScanConfig
deriving DecidableEq, Repr

/-- LEB128 encoding with explicit fuel; the fuel n + 1 always suffices
since the value shrinks by a factor of 128 each byte. -/
def varintAux (fuel n : Nat) : List Nat :=
  match fuel with
  | 0 => []
  | fuel + 1 => if n < 128 then [n] else (128 + n % 128) :: varintAux fuel (n / 128)

/-- LEB128 variable-length integer (postcard's varint). -/
def varint (n : Nat) : List Nat := varintAux (n + 1) n

def devarint : List Nat → Option (Nat × List Nat)
  | [] => none
  | b :: rest =>
    if b < 128 then some (b, rest)
    else
      match devarint rest with
      | some (m, rest') => some ((b - 128) + 128 * m, rest')
      | none => none

def encBool (b : Bool) : List Nat := [if b then 1 else 0]

def decBool : List Nat → Option (Bool × List Nat)
  | 0 :: rest => some (false, rest)
  | 1 :: rest => some (true, rest)
  | _ => none

def encOpt (enc : α → List Nat) : Option α → List Nat
  | none => [0]
  | some x => 1 :: enc x

def decOpt (dec : List Nat → Option (α × List Nat)) : List Nat → Option (Option α × List Nat)
  | 0 :: rest => some (none, rest)
  | 1 :: rest =>
    match dec rest with
    | some (x, rest') => some (some x, rest')
    | none => none
  | _ => none

def encString (s : String) : List Nat :=
  varint s.toList.length ++ s.toList.flatMap (fun c => varint c.toNat)

def decCharsN : Nat → List Nat → Option (List Char × List Nat)
  | 0, rest => some ([], rest)
  | n + 1, rest =>
    match devarint rest with
    | some (c, rest') =>
      match decCharsN n rest' with
      | some (cs, rest'') => some (Char.ofNat c :: cs, rest'')
      | none => none
    | none => none

def decString (l : List Nat) : Option (String × List Nat) :=
  match devarint l with
  | some (n, rest) =>
    match decCharsN n rest with
    | some (cs, rest') => some (String.mk cs, rest')
    | none => none
  | none => none

def encListOf (enc : α → List Nat) (l : List α) : List Nat :=
  varint l.length ++ l.flatMap enc

def decListN (dec : List Nat → Option (α × List Nat)) : Nat → List Nat → Option (List α × List Nat)
  | 0, rest => some ([], rest)
  | n + 1, rest =>
    match dec rest with
    | some (x, rest') =>
      match decListN dec n rest' with
      | some (xs, rest'') => some (x :: xs, rest'')
      | none => none
    | none => none

def decListOf (dec : List Nat → Option (α × List Nat)) (l : List Nat) : Option (List α × List Nat) :=
  match devarint l with
  | some (n, rest) => decListN dec n rest
  | none => none

def encPath (p : DPath) : List Nat := encListOf encString p

def decPath : List Nat → Option (DPath × List Nat) := decListOf decString

def encKind : NodeKind → List Nat
  | .Directory => [0]
  | .File => [1]
  | .Symlink => [2]
  | .Error => [3]

def decKind : List Nat → Option (NodeKind × List Nat)
  | 0 :: rest => some (.Directory, rest)
  | 1 :: rest => some (.File, rest)
  | 2 :: rest => some (.Symlink, rest)
  | 3 :: rest => some (.Error, rest)
  | _ => none

def encConfig (c : CachedScanConfig) : List Nat :=
  encBool c.follow_symlinks ++ encBool c.same_filesystem ++ encOpt varint c.max_depth

def decConfig (l : List Nat) : Option (CachedScanConfig × List Nat) :=
  match decBool l with
  | some (fs, r1) =>
    match decBool r1 with
    | some (sf, r2) =>
      match decOpt devarint r2 with
      | some (md, r3) => some ({ follow_symlinks := fs, same_filesystem := sf, max_depth := md }, r3)
      | none => none
    | none => none
  | none => none

def encMeta (m : CacheMetadata) : List Nat :=
  varint m.version ++ encPath m.root_path ++ varint m.scan_time ++ varint m.root_mtime ++
    varint m.total_size ++ varint m.node_count ++ encConfig m.config

def decMeta (l : List Nat) : Option (CacheMetadata × List Nat) :=
  match devarint l with
  | some (v, r1) =>
    match decPath r1 with
    | some (rp, r2) =>
      match devarint r2 with
      | some (st, r3) =>
        match devarint r3 with
        | some (rm, r4) =>
          match devarint r4 with
          | some (ts, r5) =>
            match devarint r5 with
            | some (nc, r6) =>
              match decConfig r6 with
              | some (cfg, r7) =>
                some ({ version := v, root_path := rp, scan_time := st, root_mtime := rm,
                        total_size := ts, node_count := nc, config := cfg }, r7)
              | none => none
            | none => none
          | none => none
        | none => none
      | none => none
    | none => none
  | none => none

/-- TreeNode on the wire: every field except path, which is skipped and
rebuilt after load (spec §4.3). -/
def encNode (n : TreeNode) : List Nat :=
  varint n.id ++ encString n.name ++ encKind n.kind ++ varint n.size ++
    varint n.file_count ++ encOpt varint n.parent ++ encListOf varint n.children ++
    varint n.depth ++ encBool n.is_expanded ++ encOpt varint n.mtime

def decNode (l : List Nat) : Option (TreeNode × List Nat) :=
  match devarint l with
  | some (id, r1) =>
    match decString r1 with
    | some (name, r2) =>
      match decKind r2 with
      | some (kind, r3) =>
        match devarint r3 with
        | some (size, r4) =>
          match devarint r4 with
          | some (fc, r5) =>
            match decOpt devarint r5 with
            | some (parent, r6) =>
              match decListOf devarint r6 with
              | some (children, r7) =>
                match devarint r7 with
                | some (depth, r8) =>
                  match decBool r8 with
                  | some (exp, r9) =>
                    match decOpt devarint r9 with
                    | some (mt, r10) =>
                      some ({ id := id, name := name, kind := kind, size := size,
                              file_count := fc, parent := parent, children := children,
                              depth := depth, is_expanded := exp, path := [],
                              mtime := mt }, r10)
                    | none => none
                  | none => none
                | none => none
              | none => none
            | none => none
          | none => none
        | none => none
      | none => none
    | none => none
  | none => none

def encTree (t : DiskTree) : List Nat :=
  encListOf (encOpt encNode) t.nodes ++ encPath t.root_path

def decTree (l : List Nat) : Option (DiskTree × List Nat) :=
  match decListOf (decOpt decNode) l with
  | some (nodes, r1) =>
    match decPath r1 with
    | some (rp, r2) => some ({ nodes := nodes, root_path := rp }, r2)
    | none => none
  | none => none

/-! ## CRC32 and framing (dux-core/src/cache/mod.rs) -/

/-- One bit-round of the reflected CRC-32 (polynomial 0xEDB88320), the
computation crc32fast::hash performs. -/
def crcRound (x : Nat) : Nat :=
  (x / 2) ^^^ (if x % 2 = 1 then 0xEDB88320 else 0)

def crcByte (crc b : Nat) : Nat :=
  crcRound (crcRound (crcRound (crcRound (crcRound (crcRound (crcRound (crcRound (crc ^^^ b))))))))

def crc32 (data : List Nat) : Nat :=
  (data.foldl crcByte 0xFFFFFFFF) ^^^ 0xFFFFFFFF

/-- Little-endian u32 encoding (u32::to_le_bytes; lengths are cast with
as u32, hence the mod). -/
def le32 (n : Nat) : List Nat :=
  [n % 256, n / 256 % 256, n / 65536 % 256, n / 16777216 % 256]

/-- u32::from_le_bytes over the four bytes at offset off (missing bytes
read as 0; the source's prior length checks keep reads in range). -/
def readU32 (data : List Nat) (off : Nat) : Nat :=
  let b := data.drop off
  b.getD 0 0 + 256 * b.getD 1 0 + 65536 * b.getD 2 0 + 16777216 * b.getD 3 0

/-- save_cache, up to the filesystem: the bytes written to the cache
file for a tree and its metadata. -/
def save_cache (t : DiskTree) (meta : CacheMetadata) : List Nat :=
  let meta_bytes := encMeta meta
  let tree_bytes := encTree t
  let data := CACHE_MAGIC ++ le32 CACHE_VERSION ++
    le32 meta_bytes.length ++ meta_bytes ++
    le32 tree_bytes.length ++ tree_bytes
  data ++ le32 (crc32 data)

/-- load_cache, after the file read: minimum length, trailing CRC,
magic, version, the two length-checked length-prefixed payloads, then
rebuild_paths on the decoded tree. -/
def load_cache (data : List Nat) : Except DuxError (CacheMetadata × DiskTree) :=
  if data.length < 20 then .error (.Cache "Cache file too small")
  else
    let checksum_offset := data.length - 4
    let stored_checksum := readU32 data checksum_offset
    let computed_checksum := crc32 (data.take checksum_offset)
    if stored_checksum ≠ computed_checksum then
      .error (.Cache "Cache checksum mismatch")
    else if data.take 4 ≠ CACHE_MAGIC then .error (.Cache "Invalid cache magic")
    else
      let version := readU32 data 4
      if version ≠ CACHE_VERSION then .error (.Cache "Cache version mismatch")
      else
        let meta_len := readU32 data 8
        if 12 + meta_len > checksum_offset then .error (.Cache "Invalid metadata length")
        else
          match decMeta ((data.drop 12).take meta_len) with
          | none => .error (.Cache "Failed to deserialize metadata")
          | some (meta, _) =>
            let tree_len := readU32 data (12 + meta_len)
            if 12 + meta_len + 4 + tree_len > checksum_offset then
              .error (.Cache "Invalid tree length")
            else
              match decTree ((data.drop (12 + meta_len + 4)).take tree_len) with
              | none => .error (.Cache "Failed to deserialize tree")
              | some (tree, _) => .ok (meta, tree.rebuild_paths)

/-! ## Lemmas: substring containment and path display strings -/

lemma leadsWith_iff_exists {α : Type} [DecidableEq α] (a b : List α) :
    leadsWith a b = true ↔ ∃ q, b = a ++ q := by
  induction a generalizing b with
  | nil => simp [leadsWith]
  | cons x as ih =>
    cases b with
    | nil =>
      simp only [leadsWith, Bool.false_eq_true, false_iff]
      rintro ⟨q, hq⟩
      exact List.cons_ne_nil _ _ hq.symm
    | cons y bs =>
      simp only [leadsWith, Bool.and_eq_true, decide_eq_true_eq, ih, List.cons_append,
        List.cons.injEq]
      constructor
      · rintro ⟨rfl, q, rfl⟩
        exact ⟨q, rfl, rfl⟩
      · rintro ⟨q, rfl, rfl⟩
        exact ⟨rfl, q, rfl⟩

lemma containsSeq_iff_exists {α : Type} [DecidableEq α] (pat s : List α) :
    containsSeq pat s = true ↔ ∃ u v, s = u ++ pat ++ v := by
  induction s with
  | nil =>
    simp only [containsSeq, List.isEmpty_iff]
    constructor
    · rintro rfl; exact ⟨[], [], rfl⟩
    · rintro ⟨u, v, huv⟩
      rcases List.append_eq_nil.mp (List.append_eq_nil.mp huv.symm).1 with ⟨-, h2⟩
      exact h2
  | cons x rest ih =>
    simp only [containsSeq, Bool.or_eq_true, leadsWith_iff_exists, ih]
    constructor
    · rintro (⟨q, hq⟩ | ⟨u, v, rfl⟩)
      · exact ⟨[], q, by simpa using hq⟩
      · exact ⟨x :: u, v, rfl⟩
    · rintro ⟨u, v, huv⟩
      cases u with
      | nil => exact Or.inl ⟨v, by simpa using huv⟩
      | cons u0 us =>
        right
        refine ⟨us, v, ?_⟩
        have := huv
        simp only [List.cons_append] at this
        exact (List.cons.injEq _ _ _ _ ▸ this).2

lemma containsSeq_nil {α : Type} [DecidableEq α] (s : List α) :
    containsSeq ([] : List α) s = true := by
  rw [containsSeq_iff_exists]
  exact ⟨[], s, rfl⟩

lemma containsSeq_append_right {α : Type} [DecidableEq α] (pat s w : List α)
    (h : containsSeq pat s = true) : containsSeq pat (s ++ w) = true := by
  rw [containsSeq_iff_exists] at h ⊢
  obtain ⟨u, v, rfl⟩ := h
  exact ⟨u, v ++ w, by simp⟩

lemma pathChars_append (p q : DPath) (hp : p ≠ []) (hq : q ≠ []) :
    pathChars (p ++ q) = pathChars p ++ '/' :: pathChars q := by
  induction p with
  | nil => exact absurd rfl hp
  | cons x ps ih =>
    cases ps with
    | nil =>
      cases q with
      | nil => exact absurd rfl hq
      | cons y qs => simp [pathChars]
    | cons x2 ps2 =>
      have step : pathChars (x :: (x2 :: ps2) ++ q) =
          x.toList ++ '/' :: pathChars ((x2 :: ps2) ++ q) := by
        cases h : (x2 :: ps2) ++ q <;> simp_all [pathChars]
      calc pathChars ((x :: x2 :: ps2) ++ q)
          = x.toList ++ '/' :: pathChars ((x2 :: ps2) ++ q) := step
        _ = x.toList ++ '/' :: (pathChars (x2 :: ps2) ++ '/' :: pathChars q) := by
            rw [ih (List.cons_ne_nil _ _)]
        _ = pathChars (x :: x2 :: ps2) ++ '/' :: pathChars q := by simp [pathChars]

/-- When the candidate path is a component-wise leading part of the root
path, every substring of its display form is a substring of the root's
display form. -/
lemma containsSeq_of_leadsWith (p r : DPath) (h : leadsWith p r = true)
    (pat : List Char) (hc : containsSeq pat (pathChars p) = true) :
    containsSeq pat (pathChars r) = true := by
  obtain ⟨q, rfl⟩ := (leadsWith_iff_exists p r).mp h
  by_cases hq : q = []
  · subst hq; simpa using hc
  by_cases hp : p = []
  · subst hp
    have hpat : pat = [] := by
      rw [containsSeq_iff_exists] at hc
      obtain ⟨u, v, huv⟩ := hc
      have h0 : u ++ pat ++ v = [] := by simpa [pathChars] using huv.symm
      exact (List.append_eq_nil.mp (List.append_eq_nil.mp h0).1).2
    subst hpat
    exact containsSeq_nil _
  · rw [pathChars_append p q hp hq]
    exact containsSeq_append_right _ _ _ hc

/-- C6, amended form: is_virtual_or_slow_path p r is true exactly when
some fixed pattern occurs in p's display string but not in r's; the
early exit for p = r or p a component-wise leading part of r never
changes this outcome. -/
theorem virtual_path_filter_iff (p r : DPath) :
    is_virtual_or_slow_path p r = true ↔
      ∃ pat ∈ SLOW_PATTERNS, containsSeq pat (pathChars p) = true ∧
        containsSeq pat (pathChars r) = false := by
  unfold is_virtual_or_slow_path
  by_cases he : (p = r || leadsWith p r) = true
  · rw [if_pos he]
    simp only [Bool.false_eq_true, false_iff]
    rintro ⟨pat, -, hcp, hcr⟩
    rcases Bool.or_eq_true _ _ ▸ he with h1 | h2
    · rw [decide_eq_true_eq] at h1
      subst h1
      exact absurd hcp (by simp [hcr])
    · exact absurd (containsSeq_of_leadsWith p r h2 pat hcp) (by simp [hcr])
  · rw [if_neg he]
    simp only [List.any_eq_true, Bool.and_eq_true, Bool.not_eq_true']

/-- C6, counterexample to the claim as stated: for the candidate path
/Volumes/data/proc/x under scan root /Volumes/data, the function returns
true (the pattern /proc/ occurs in the path but not in the root), yet the
root does contain one of the substrings matching the path (/Volumes/),
so the claim's right-hand side — some forbidden substring occurs in p
and r contains none of the matching substrings — is false. -/
theorem virtual_path_filter_claim_counterexample :
    is_virtual_or_slow_path ["", "Volumes", "data", "proc", "x"] ["", "Volumes", "data"] = true ∧
    ¬ ((∃ pat ∈ SLOW_PATTERNS,
          containsSeq pat (pathChars ["", "Volumes", "data", "proc", "x"]) = true) ∧
       (∀ pat ∈ SLOW_PATTERNS,
          containsSeq pat (pathChars ["", "Volumes", "data", "proc", "x"]) = true →
          containsSeq pat (pathChars ["", "Volumes", "data"]) = false)) := by
  constructor
  · decide
  · decide

/-! ## Lemmas: the stable descending sort of sort_by_size -/

namespace DiskTree

lemma insOrd_split {α : Type} (key : α → Nat) (x : α) (l : List α) :
    ∃ u w, l = u ++ w ∧ insOrd key x l = u ++ x :: w ∧ ∀ y ∈ u, key x < key y := by
  induction l with
  | nil => exact ⟨[], [], rfl, rfl, by simp⟩
  | cons y ys ih =>
    by_cases h : key y ≤ key x
    · exact ⟨[], y :: ys, rfl, by simp [insOrd, h], by simp⟩
    · obtain ⟨u, w, hl, hins, hu⟩ := ih
      refine ⟨y :: u, w, by simp [hl], ?_, ?_⟩
      · simp [insOrd, h, hins]
      · intro z hz
        rcases List.mem_cons.mp hz with rfl | hz
        · omega
        · exact hu z hz

lemma mem_insOrd {α : Type} (key : α → Nat) (x : α) (l : List α) (z : α) :
    z ∈ insOrd key x l ↔ z = x ∨ z ∈ l := by
  obtain ⟨u, w, hl, hins, -⟩ := insOrd_split key x l
  subst hl
  rw [hins]
  simp [List.mem_append, List.mem_cons]
  tauto

lemma insOrd_pairwise {α : Type} (key : α → Nat) (x : α) (l : List α)
    (h : l.Pairwise (fun a b => key b ≤ key a)) :
    (insOrd key x l).Pairwise (fun a b => key b ≤ key a) := by
  induction l with
  | nil => simp [insOrd]
  | cons y ys ih =>
    rcases List.pairwise_cons.mp h with ⟨hy, hys⟩
    by_cases hxy : key y ≤ key x
    · rw [insOrd, if_pos hxy]
      refine List.pairwise_cons.mpr ⟨?_, h⟩
      intro z hz
      rcases List.mem_cons.mp hz with rfl | hz
      · exact hxy
      · exact le_trans (hy z hz) hxy
    · rw [insOrd, if_neg hxy]
      refine List.pairwise_cons.mpr ⟨?_, ih hys⟩
      intro z hz
      rcases (mem_insOrd key x ys z).mp hz with rfl | hz
      · omega
      · exact hy z hz

lemma sortByKeyDesc_pairwise {α : Type} (key : α → Nat) (l : List α) :
    (sortByKeyDesc key l).Pairwise (fun a b => key b ≤ key a) := by
  induction l with
  | nil => simp [sortByKeyDesc]
  | cons x xs ih => exact insOrd_pairwise key x _ ih

lemma filter_keyEq_insOrd {α : Type} (key : α → Nat) (v : Nat) (x : α) (l : List α) :
    (insOrd key x l).filter (fun c => key c = v) =
      if key x = v then x :: l.filter (fun c => key c = v)
      else l.filter (fun c => key c = v) := by
  obtain ⟨u, w, hl, hins, hu⟩ := insOrd_split key x l
  subst hl
  rw [hins]
  by_cases hx : key x = v
  · have hufilter : u.filter (fun c => key c = v) = [] := by
      rw [List.filter_eq_nil_iff]
      intro y hy
      have := hu y hy
      simp only [decide_eq_true_eq]
      omega
    simp [List.filter_append, hufilter, hx]
  · simp [List.filter_append, hx]

lemma sortByKeyDesc_filter_keyEq {α : Type} (key : α → Nat) (v : Nat) (l : List α) :
    (sortByKeyDesc key l).filter (fun c => key c = v) = l.filter (fun c => key c = v) := by
  induction l with
  | nil => rfl
  | cons x xs ih =>
    rw [sortByKeyDesc, filter_keyEq_insOrd]
    by_cases hx : key x = v
    · simp [hx, ih]
    · simp [hx, ih]

lemma get_sort_by_size (t : DiskTree) (i : Nat) :
    (t.sort_by_size).get i = (t.get i).map
      (fun n => { n with children := sortByKeyDesc (snapKey t.sizeSnapshot) n.children }) := by
  unfold sort_by_size get
  simp only [List.getElem?_map]
  cases h : t.nodes[i]? with
  | none => rfl
  | some o => cases o <;> rfl

lemma snapKey_of_get (t : DiskTree) (c : Nat) (ch : TreeNode) (h : t.get c = some ch) :
    snapKey t.sizeSnapshot c = ch.size := by
  unfold get at h
  unfold snapKey sizeSnapshot
  cases hc : t.nodes[c]? with
  | none => rw [hc] at h; exact absurd h (by simp)
  | some o =>
    rw [hc] at h
    cases o with
    | none => exact absurd h (by simp)
    | some nd =>
      simp only [Option.some.injEq] at h
      subst h
      simp [List.getElem?_map, hc]

/-- C8: after sort_by_size, every live node's children are non-increasing
in the children's sizes (adjacent live children compare by size), and
children with equal sort keys keep their relative order (the sublist of
children with any fixed key is unchanged), where the sort key is the
snapshot size sort_by_size reads: the child's size, or 0 for a
tombstoned or out-of-range child. -/
theorem sort_by_size_sorted_stable (t : DiskTree) :
    ∀ i nd, (t.sort_by_size).get i = some nd →
      ((∀ j, j + 1 < nd.children.length →
        ∀ ca cb, (t.sort_by_size).get (nd.children.getD j 0) = some ca →
          (t.sort_by_size).get (nd.children.getD (j + 1) 0) = some cb →
          cb.size ≤ ca.size) ∧
      (∀ nd0, t.get i = some nd0 → ∀ v : Nat,
        nd.children.filter (fun c => snapKey t.sizeSnapshot c = v) =
          nd0.children.filter (fun c => snapKey t.sizeSnapshot c = v))) := by
  intro i nd hnd
  rw [get_sort_by_size] at hnd
  cases h0 : t.get i with
  | none => rw [h0] at hnd; exact absurd hnd (by simp)
  | some nd0 =>
    rw [h0] at hnd
    simp only [Option.map_some', Option.some.injEq] at hnd
    subst hnd
    have key_eq : ∀ c cc, (t.sort_by_size).get c = some cc →
        snapKey t.sizeSnapshot c = cc.size := by
      intro c cc hc
      rw [get_sort_by_size] at hc
      cases hg : t.get c with
      | none => rw [hg] at hc; exact absurd hc (by simp)
      | some c0 =>
        rw [hg] at hc
        simp only [Option.map_some', Option.some.injEq] at hc
        subst hc
        exact snapKey_of_get t c c0 hg
    constructor
    · intro j hj ca cb hca hcb
      have hpair := sortByKeyDesc_pairwise (snapKey t.sizeSnapshot) nd0.children
      rw [List.pairwise_iff_getElem] at hpair
      set cs := sortByKeyDesc (snapKey t.sizeSnapshot) nd0.children with hcs
      have hlen : j + 1 < cs.length := hj
      have hgd1 : cs.getD j 0 = cs[j] := by
        rw [List.getD_eq_getElem?_getD, List.getElem?_eq_getElem (by omega)]
        rfl
      have hgd2 : cs.getD (j + 1) 0 = cs[j + 1] := by
        rw [List.getD_eq_getElem?_getD, List.getElem?_eq_getElem hlen]
        rfl
      have hkey := hpair j (j + 1) (by omega) hlen (by omega)
      have h1 : snapKey t.sizeSnapshot (cs.getD j 0) = ca.size := key_eq _ _ hca
      have h2 : snapKey t.sizeSnapshot (cs.getD (j + 1) 0) = cb.size := key_eq _ _ hcb
      rw [hgd1] at h1
      rw [hgd2] at h2
      omega
    · intro nd0' h0' v
      have : nd0 = nd0' := Option.some_inj.mp h0'
      subst this
      exact sortByKeyDesc_filter_keyEq _ v _

/-- A concrete tree for exercising sort_by_size: a root with two files
of sizes 100 and 200, inserted in that order. -/
def sortWitnessTree : DiskTree :=
  ((((DiskTree.new [""]).add_node "a" NodeKind.File ["", "a"] 0).1.add_node
      "b" NodeKind.File ["", "b"] 0).1.set_size 1 100).set_size 2 200

/-- The root of sortWitnessTree after sorting: children reordered to
size-descending [2, 1]. -/
def sortWitnessRoot : TreeNode :=
  { id := 0, name := "", kind := NodeKind.Directory, size := 0, file_count := 0,
    parent := none, children := [2, 1], depth := 0, is_expanded := true,
    path := [""], mtime := none }

/-- The root of sortWitnessTree before sorting: children in insertion
order [1, 2]. -/
def sortWitnessRoot0 : TreeNode :=
  { id := 0, name := "", kind := NodeKind.Directory, size := 0, file_count := 0,
    parent := none, children := [1, 2], depth := 0, is_expanded := true,
    path := [""], mtime := none }

/-- Witness for sort_by_size_sorted_stable at a concrete tree. -/
theorem sort_by_size_witness :
    ((sortWitnessTree.sort_by_size).get 0 = some sortWitnessRoot) ∧
    (sortWitnessRoot.children.filter
        (fun c => snapKey sortWitnessTree.sizeSnapshot c = 100) =
      sortWitnessRoot0.children.filter
        (fun c => snapKey sortWitnessTree.sizeSnapshot c = 100)) :=
  ⟨by decide,
    (sort_by_size_sorted_stable sortWitnessTree 0 sortWitnessRoot (by decide)).2
      sortWitnessRoot0 (by decide) 100⟩

end DiskTree

/-! ## Visibility walk (C10) -/

/-- One step of the visibility walk: b is a child of the live, expanded
node a. -/
def VisStep (t : DiskTree) (a b : Nat) : Prop :=
  ∃ nd, t.get a = some nd ∧ nd.is_expanded = true ∧ b ∈ nd.children

lemma collect_visible_shape (t : DiskTree) :
    ∀ fuel id, ∃ rest, DiskTree.collect_visible t fuel id = id :: rest ∧
      ∀ x ∈ rest, Relation.TransGen (VisStep t) id x := by
  intro fuel
  induction fuel with
  | zero => intro id; exact ⟨[], rfl, by simp⟩
  | succ m ih =>
    intro id
    cases hget : t.get id with
    | none =>
      refine ⟨[], ?_, by simp⟩
      simp [DiskTree.collect_visible, hget]
    | some n =>
      by_cases hexp : n.is_expanded = true
      · refine ⟨n.children.flatMap (fun c => DiskTree.collect_visible t m c), ?_, ?_⟩
        · simp [DiskTree.collect_visible, hget, hexp]
        · intro x hx
          rw [List.mem_flatMap] at hx
          obtain ⟨c, hc, hxc⟩ := hx
          obtain ⟨rest_c, hrc, hrest⟩ := ih c
          rw [hrc] at hxc
          have hstep : VisStep t id c := ⟨n, hget, hexp, hc⟩
          rcases List.mem_cons.mp hxc with rfl | hxc
          · exact Relation.TransGen.single hstep
          · exact Relation.TransGen.head hstep (hrest x hxc)
      · refine ⟨[], ?_, by simp⟩
        simp only [DiskTree.collect_visible, hget]
        rw [if_neg hexp]

/-- C10: visible_nodes(r) is non-empty with first element r; when the
slot r is tombstoned or out of range the result is exactly the one
element sequence r; and every later element is reached from r through a
chain of live nodes whose is_expanded flag is true. -/
theorem visible_nodes_spec (t : DiskTree) (r : Nat) :
    (∃ rest, t.visible_nodes r = r :: rest ∧
      ∀ x ∈ rest, Relation.TransGen (VisStep t) r x) ∧
    (t.get r = none → t.visible_nodes r = [r]) := by
  constructor
  · exact collect_visible_shape t t.nodes.length r
  · intro hget
    unfold DiskTree.visible_nodes
    cases t.nodes.length with
    | zero => rfl
    | succ m => simp [DiskTree.collect_visible, hget]

/-- Witness for visible_nodes_spec at a concrete tree and a dead slot. -/
theorem visible_nodes_witness :
    (DiskTree.sortWitnessTree.get 5 = none) ∧
    DiskTree.sortWitnessTree.visible_nodes 5 = [5] :=
  ⟨by decide, (visible_nodes_spec DiskTree.sortWitnessTree 5).2 (by decide)⟩

/-! ## Well-formedness checks and the parent-chain relation -/

/-- Every live node's parent pointer refers to a strictly smaller index
(the arena's parent-before-child append discipline). -/
def parentsBelowOk (t : DiskTree) : Bool :=
  (List.range t.nodes.length).all (fun i =>
    match t.get i with
    | some nd =>
      match nd.parent with
      | some p => decide (p < i)
      | none => true
    | none => true)

/-- Every live node's children have strictly larger indices (the arena's
parent-before-child append discipline, seen from the other side). -/
def childrenAboveOk (t : DiskTree) : Bool :=
  (List.range t.nodes.length).all (fun i =>
    match t.get i with
    | some nd => nd.children.all (fun c => decide (i < c))
    | none => true)

lemma get_lt_length (t : DiskTree) (i : Nat) (nd : TreeNode) (h : t.get i = some nd) :
    i < t.nodes.length := by
  unfold DiskTree.get at h
  cases hc : t.nodes[i]? with
  | none => rw [hc] at h; exact absurd h (by simp)
  | some o => exact (List.getElem?_eq_some.mp hc).1

lemma parentsBelow_spec (t : DiskTree) (h : parentsBelowOk t = true) :
    ∀ i nd p, t.get i = some nd → nd.parent = some p → p < i := by
  intro i nd p hget hpar
  have hi : i < t.nodes.length := get_lt_length t i nd hget
  have := List.all_eq_true.mp h i (List.mem_range.mpr hi)
  simp only [hget, hpar] at this
  exact of_decide_eq_true this

lemma childrenAbove_spec (t : DiskTree) (h : childrenAboveOk t = true) :
    ∀ i nd c, t.get i = some nd → c ∈ nd.children → i < c := by
  intro i nd c hget hc
  have hi : i < t.nodes.length := get_lt_length t i nd hget
  have := List.all_eq_true.mp h i (List.mem_range.mpr hi)
  simp only [hget] at this
  exact of_decide_eq_true (List.all_eq_true.mp this c hc)

/-- One step up the tree: b is the parent of the live node a. -/
def StepUp (t : DiskTree) (a b : Nat) : Prop :=
  ∃ nd, t.get a = some nd ∧ nd.parent = some b

lemma stepUp_lt (t : DiskTree) (h : parentsBelowOk t = true) {a b : Nat}
    (hs : StepUp t a b) : b < a := by
  obtain ⟨nd, hget, hpar⟩ := hs
  exact parentsBelow_spec t h a nd b hget hpar

lemma transGen_stepUp_lt (t : DiskTree) (h : parentsBelowOk t = true) {a b : Nat}
    (htg : Relation.TransGen (StepUp t) a b) : b < a := by
  induction htg with
  | single hs => exact stepUp_lt t h hs
  | tail _ hs ih => exact lt_trans (stepUp_lt t h hs) ih

/-! ## Multi-selection dedupe (C7) -/

lemma ancestorSelected_iff (t : DiskTree) (S : List Nat) (hpb : parentsBelowOk t = true) :
    ∀ fuel id, fuel ≥ id + 1 →
      (ancestorSelected t S fuel id = true ↔
        ∃ a ∈ S, Relation.TransGen (StepUp t) id a) := by
  intro fuel
  induction fuel with
  | zero => intro id hid; omega
  | succ m ih =>
    intro id hid
    constructor
    · intro h
      unfold ancestorSelected at h
      cases hget : t.get id with
      | none => rw [hget] at h; exact absurd h (by simp)
      | some node =>
        simp only [hget] at h
        cases hpar : node.parent with
        | none => rw [hpar] at h; exact absurd h (by simp)
        | some parent =>
          simp only [hpar] at h
          by_cases hc : S.contains parent = true
          · refine ⟨parent, by simpa using hc, Relation.TransGen.single ⟨node, hget, hpar⟩⟩
          · rw [if_neg hc] at h
            have hplt : parent < id := parentsBelow_spec t hpb id node parent hget hpar
            obtain ⟨a, haS, htg⟩ := (ih parent (by omega)).mp h
            exact ⟨a, haS, Relation.TransGen.head ⟨node, hget, hpar⟩ htg⟩
    · rintro ⟨a, haS, htg⟩
      obtain ⟨b, hstep, hrtg⟩ := Relation.TransGen.head'_iff.mp htg
      obtain ⟨node, hget, hpar⟩ := hstep
      simp only [ancestorSelected, hget, hpar]
      by_cases hc : S.contains b = true
      · rw [if_pos hc]
      · rw [if_neg hc]
        have hblt : b < id := parentsBelow_spec t hpb id node b hget hpar
        rcases hrtg.cases_head with rfl | ⟨c, hbc, hca⟩
        · exact absurd (by simpa using haS : S.contains b = true) hc
        · exact (ih b (by omega)).mpr
            ⟨a, haS, Relation.TransGen.head'_iff.mpr ⟨c, hbc, hca⟩⟩

/-- C7: for a selection S of live non-root nodes over a tree whose
parent pointers point to smaller indices, the deduped result D is a
subset of S, an antichain under the strict-ancestor relation, and every
selected node has a representative in D equal to it or among its
ancestors. -/
theorem dedup_selected_nodes_spec (t : DiskTree) (S : List Nat)
    (hpb : parentsBelowOk t = true)
    (hS : S.all (fun s => (t.get s).isSome && decide (s ≠ 0)) = true) :
    (∀ d ∈ dedup_selected_nodes t S, d ∈ S) ∧
    (∀ d1 ∈ dedup_selected_nodes t S, ∀ d2 ∈ dedup_selected_nodes t S,
      ¬ Relation.TransGen (StepUp t) d2 d1) ∧
    (∀ s ∈ S, ∃ d ∈ dedup_selected_nodes t S,
      d = s ∨ Relation.TransGen (StepUp t) s d) := by
  have hlive : ∀ s ∈ S, (t.get s).isSome := by
    intro s hs
    exact (Bool.and_eq_true _ _ ▸ List.all_eq_true.mp hS s hs).1
  refine ⟨?_, ?_, ?_⟩
  · intro d hd
    exact (List.mem_filter.mp hd).1
  · intro d1 hd1 d2 hd2 htg
    have hd2S := (List.mem_filter.mp hd2).1
    have hd1S := (List.mem_filter.mp hd1).1
    have hd2cond := (List.mem_filter.mp hd2).2
    have hd2len : d2 < t.nodes.length := by
      have := hlive d2 hd2S
      cases hg : t.get d2 with
      | none => rw [hg] at this; exact absurd this (by simp)
      | some nd => exact get_lt_length t d2 nd hg
    have : ancestorSelected t S t.nodes.length d2 = true :=
      (ancestorSelected_iff t S hpb t.nodes.length d2 (by omega)).mpr ⟨d1, hd1S, htg⟩
    rw [this] at hd2cond
    exact absurd hd2cond (by simp)
  · intro s hs
    induction s using Nat.strong_induction_on with
    | _ s ihs =>
      by_cases hanc : ancestorSelected t S t.nodes.length s = true
      · obtain ⟨a, haS, htg⟩ :=
          (ancestorSelected_iff t S hpb t.nodes.length s (by
            have := hlive s hs
            cases hg : t.get s with
            | none => rw [hg] at this; exact absurd this (by simp)
            | some nd => have := get_lt_length t s nd hg; omega)).mp hanc
        have halt : a < s := transGen_stepUp_lt t hpb htg
        obtain ⟨d, hdD, hda⟩ := ihs a halt haS
        rcases hda with rfl | htg2
        · exact ⟨d, hdD, Or.inr htg⟩
        · exact ⟨d, hdD, Or.inr (Relation.TransGen.trans htg htg2)⟩
      · refine ⟨s, ?_, Or.inl rfl⟩
        exact List.mem_filter.mpr ⟨hs, by simp [hanc]⟩

/-- Witness for dedup_selected_nodes_spec: in the two-file tree, selecting
both files keeps both (no ancestor relation between them). -/
theorem dedup_selected_nodes_witness :
    (parentsBelowOk DiskTree.sortWitnessTree = true) ∧
    ([1, 2].all (fun s => (DiskTree.sortWitnessTree.get s).isSome && decide (s ≠ 0)) = true) ∧
    (∃ d ∈ dedup_selected_nodes DiskTree.sortWitnessTree [1, 2],
      d = 1 ∨ Relation.TransGen (StepUp DiskTree.sortWitnessTree) 1 d) :=
  ⟨by decide, by decide,
    (dedup_selected_nodes_spec DiskTree.sortWitnessTree [1, 2] (by decide) (by decide)).2.2
      1 (by decide)⟩

/-! ## Staleness evaluation and threshold cycling (C5) -/

lemma mem_sortByKeyDesc {α : Type} (key : α → Nat) (l : List α) (z : α) :
    z ∈ DiskTree.sortByKeyDesc key l ↔ z ∈ l := by
  induction l with
  | nil => simp [DiskTree.sortByKeyDesc]
  | cons x xs ih =>
    rw [DiskTree.sortByKeyDesc, DiskTree.mem_insOrd, ih]
    simp

lemma insOrd_map {α β : Type} (key1 : α → Nat) (key2 : β → Nat) (f : α → β)
    (hkey : ∀ a, key2 (f a) = key1 a) (x : α) (l : List α) :
    DiskTree.insOrd key2 (f x) (l.map f) = (DiskTree.insOrd key1 x l).map f := by
  induction l with
  | nil => rfl
  | cons y ys ih =>
    simp only [List.map_cons, DiskTree.insOrd, hkey]
    by_cases h : key1 y ≤ key1 x
    · rw [if_pos h, if_pos h]
      rfl
    · rw [if_neg h, if_neg h, List.map_cons, ih]

lemma sortByKeyDesc_map {α β : Type} (key1 : α → Nat) (key2 : β → Nat) (f : α → β)
    (hkey : ∀ a, key2 (f a) = key1 a) (l : List α) :
    DiskTree.sortByKeyDesc key2 (l.map f) = (DiskTree.sortByKeyDesc key1 l).map f := by
  induction l with
  | nil => rfl
  | cons x xs ih =>
    simp only [List.map_cons, DiskTree.sortByKeyDesc, ih]
    exact insOrd_map key1 key2 f hkey x _

/-- Re-evaluating staleness at a new threshold from the stored
newest_mtime: the only difference between two rebuilds over the same
tree at the same now. -/
def restale (th : StaleThreshold) (now : Nat) (e : BuildArtifactEntry) : BuildArtifactEntry :=
  { e with is_stale := staleCalc th now e.newest_mtime }

lemma artifactEntry_restale (t : DiskTree) (th th' : StaleThreshold) (now : Nat)
    (n : TreeNode) :
    artifactEntry t th' now n = (artifactEntry t th now n).map (restale th' now) := by
  unfold artifactEntry
  by_cases h1 : (!n.kind.is_directory) = true
  · rw [if_pos h1, if_pos h1]
    rfl
  · rw [if_neg h1, if_neg h1]
    cases classify_artifact n.name with
    | none => rfl
    | some kind =>
      by_cases h2 : hasArtifactAncestor t t.nodes.length n.parent = true
      · simp only [h2, if_true]
        rfl
      · simp only [h2, Bool.false_eq_true, if_false, Option.map_some']
        rfl

lemma rebuild_build_artifacts_restale (t : DiskTree) (th th' : StaleThreshold) (now : Nat) :
    rebuild_build_artifacts t th' now =
      (rebuild_build_artifacts t th now).map (restale th' now) := by
  unfold rebuild_build_artifacts
  have h1 : t.iterNodes.filterMap (artifactEntry t th' now) =
      (t.iterNodes.filterMap (artifactEntry t th now)).map (restale th' now) := by
    rw [List.map_filterMap]
    exact List.filterMap_congr (fun n _ => artifactEntry_restale t th th' now n)
  rw [h1]
  exact (sortByKeyDesc_map (fun (e : BuildArtifactEntry) => e.size)
    (fun (e : BuildArtifactEntry) => e.size) (restale th' now) (fun a => rfl) _)

lemma mem_rebuild_is_stale (t : DiskTree) (th : StaleThreshold) (now : Nat)
    (e : BuildArtifactEntry) (he : e ∈ rebuild_build_artifacts t th now) :
    e.is_stale = staleCalc th now e.newest_mtime := by
  unfold rebuild_build_artifacts at he
  rw [mem_sortByKeyDesc] at he
  obtain ⟨n, -, hn⟩ := List.mem_filterMap.mp he
  unfold artifactEntry at hn
  by_cases h1 : (!n.kind.is_directory) = true
  · rw [if_pos h1] at hn
    exact absurd hn (by simp)
  · rw [if_neg h1] at hn
    cases hcl : classify_artifact n.name with
    | none => rw [hcl] at hn; exact absurd hn (by simp)
    | some kind =>
      rw [hcl] at hn
      by_cases h2 : hasArtifactAncestor t t.nodes.length n.parent = true
      · simp only [h2, if_true] at hn
        exact absurd hn (by simp)
      · simp only [h2, Bool.false_eq_true, if_false, Option.some.injEq] at hn
        subst hn
        rfl

lemma staleCalc_spec (th : StaleThreshold) (now : Nat) (nm : Option Nat) :
    (th = .All → staleCalc th now nm = true) ∧
    (∀ dur, th.duration = some dur → nm = none → staleCalc th now nm = false) ∧
    (∀ dur mt, th.duration = some dur → nm = some mt →
      (staleCalc th now nm = true ↔ now - mt > dur)) := by
  refine ⟨?_, ?_, ?_⟩
  · rintro rfl
    cases nm <;> rfl
  · rintro dur hdur rfl
    simp [staleCalc, hdur]
  · rintro dur mt hdur rfl
    simp only [staleCalc, hdur]
    by_cases hle : mt ≤ now
    · rw [if_pos hle]
      simp
    · rw [if_neg hle]
      constructor
      · intro h; exact absurd h (by simp)
      · intro h; omega

/-- C5: every entry rebuild_build_artifacts produces is stale exactly as
the spec's case split prescribes (All is always stale, an absent
newest_mtime is never stale, otherwise stale iff the age exceeds the
threshold), and on a view whose entries came from a rebuild at the same
tree and now, cycle_stale_threshold advances the threshold and updates
every is_stale flag in place — without consulting the tree — to exactly
what a full rebuild at the new threshold and the same now computes. -/
theorem stale_threshold_cycle_spec (t : DiskTree) (th : StaleThreshold) (now : Nat) :
    (∀ e ∈ rebuild_build_artifacts t th now,
      (th = .All → e.is_stale = true) ∧
      (∀ dur, th.duration = some dur → e.newest_mtime = none → e.is_stale = false) ∧
      (∀ dur mt, th.duration = some dur → e.newest_mtime = some mt →
        (e.is_stale = true ↔ now - mt > dur))) ∧
    (∀ v : ComputedViews, v.stale_threshold = th →
      v.build_artifacts = rebuild_build_artifacts t th now →
      (v.cycle_stale_threshold now).stale_threshold = th.next ∧
      (v.cycle_stale_threshold now).build_artifacts =
        rebuild_build_artifacts t th.next now) := by
  constructor
  · intro e he
    have hst := mem_rebuild_is_stale t th now e he
    obtain ⟨hAll, hNone, hSome⟩ := staleCalc_spec th now e.newest_mtime
    refine ⟨?_, ?_, ?_⟩
    · intro h; rw [hst]; exact hAll h
    · intro dur h1 h2; rw [hst]; exact hNone dur h1 h2
    · intro dur mt h1 h2; rw [hst]; exact hSome dur mt h1 h2
  · intro v hth hba
    constructor
    · simp [ComputedViews.cycle_stale_threshold, hth]
    · show (v.cycle_stale_threshold now).build_artifacts = _
      unfold ComputedViews.cycle_stale_threshold
      simp only [hth, hba]
      rw [rebuild_build_artifacts_restale t th th.next now]
      rfl

/-- A tree with one artifact directory for exercising the staleness
claims: node_modules with mtime 1000 under the root. -/
def staleWitnessTree : DiskTree :=
  (((DiskTree.new [""]).add_node "node_modules" NodeKind.Directory
      ["", "node_modules"] 0).1.modifyNode 1
    (fun n => { n with mtime := some 1000, size := 50 }))

/-- Witness for stale_threshold_cycle_spec: ten days after mtime 1000,
the single artifact entry is stale at 7 days; cycling from 7 days moves
the view to the 30-day threshold and recomputes exactly the 30-day
rebuild. -/
theorem stale_threshold_cycle_witness :
    (({ large_files := []
        build_artifacts :=
          rebuild_build_artifacts staleWitnessTree .SevenDays (1000 + 10 * 86400)
        dirty := false
        stale_threshold := .SevenDays : ComputedViews }.cycle_stale_threshold
        (1000 + 10 * 86400)).stale_threshold = StaleThreshold.ThirtyDays ∧
      ({ large_files := []
         build_artifacts :=
           rebuild_build_artifacts staleWitnessTree .SevenDays (1000 + 10 * 86400)
         dirty := false
         stale_threshold := .SevenDays : ComputedViews }.cycle_stale_threshold
        (1000 + 10 * 86400)).build_artifacts =
        rebuild_build_artifacts staleWitnessTree .ThirtyDays (1000 + 10 * 86400)) :=
  (stale_threshold_cycle_spec staleWitnessTree .SevenDays (1000 + 10 * 86400)).2
    _ rfl rfl

/-! ## Aggregation (C1) -/

namespace DiskTree

/-- Children of every live node have strictly larger indices, as a
proposition. -/
def ChildrenAboveP (t : DiskTree) : Prop :=
  ∀ i nd c, t.get i = some nd → c ∈ nd.children → i < c

lemma get_setNode_ne (t : DiskTree) (i j : Nat) (nd : TreeNode) (h : j ≠ i) :
    (t.setNode i nd).get j = t.get j := by
  unfold setNode get
  simp only [List.getElem?_set_ne (fun he => h he.symm)]

lemma get_setNode_self (t : DiskTree) (i : Nat) (nd : TreeNode)
    (h : i < t.nodes.length) : (t.setNode i nd).get i = some nd := by
  unfold setNode get
  simp [List.getElem?_set_self', h]

lemma setNode_length (t : DiskTree) (i : Nat) (nd : TreeNode) :
    (t.setNode i nd).nodes.length = t.nodes.length := by
  unfold setNode
  simp

lemma get_modifyNode_ne (t : DiskTree) (i j : Nat) (f : TreeNode → TreeNode) (h : j ≠ i) :
    (t.modifyNode i f).get j = t.get j := by
  unfold modifyNode
  cases t.get i with
  | none => rfl
  | some nd => exact get_setNode_ne t i j (f nd) h

lemma get_modifyNode_self (t : DiskTree) (i : Nat) (f : TreeNode → TreeNode)
    (nd : TreeNode) (h : t.get i = some nd) :
    (t.modifyNode i f).get i = some (f nd) := by
  unfold modifyNode
  rw [h]
  exact get_setNode_self t i (f nd) (get_lt_length t i nd h)

lemma modifyNode_length (t : DiskTree) (i : Nat) (f : TreeNode → TreeNode) :
    (t.modifyNode i f).nodes.length = t.nodes.length := by
  unfold modifyNode
  cases t.get i with
  | none => rfl
  | some nd => exact setNode_length t i (f nd)

lemma aggStep_get_ne (t : DiskTree) (i j : Nat) (h : j ≠ i) :
    (aggStep t i).get j = t.get j := by
  unfold aggStep
  cases hg : t.get i with
  | none => rfl
  | some n =>
    simp only []
    by_cases hd : n.kind.is_directory = true
    · rw [if_pos hd]
      exact get_modifyNode_ne t i j _ h
    · rw [if_neg hd]

lemma aggStep_length (t : DiskTree) (i : Nat) :
    (aggStep t i).nodes.length = t.nodes.length := by
  unfold aggStep
  cases hg : t.get i with
  | none => rfl
  | some n =>
    simp only []
    by_cases hd : n.kind.is_directory = true
    · rw [if_pos hd]
      exact modifyNode_length t i _
    · rw [if_neg hd]

/-- aggStep only rewrites a node's size and file_count; liveness,
children and kind are untouched. -/
lemma aggStep_shape (t : DiskTree) (i j : Nat) :
    ∀ nd', (aggStep t i).get j = some nd' →
      ∃ nd, t.get j = some nd ∧ nd'.children = nd.children ∧ nd'.kind = nd.kind := by
  intro nd' h
  by_cases hij : j = i
  · subst hij
    unfold aggStep at h
    cases hg : t.get j with
    | none =>
      simp only [hg] at h
      exact absurd h (by simp)
    | some n =>
      simp only [hg] at h
      by_cases hd : n.kind.is_directory = true
      · rw [if_pos hd] at h
        rw [get_modifyNode_self t j _ n hg] at h
        obtain rfl := (Option.some_inj.mp h).symm
        exact ⟨n, rfl, rfl, rfl⟩
      · rw [if_neg hd, hg] at h
        exact ⟨n, rfl, by rw [← Option.some_inj.mp h], by rw [← Option.some_inj.mp h]⟩
  · rw [aggStep_get_ne t i j hij] at h
    exact ⟨nd', h, rfl, rfl⟩

lemma aggStep_childrenAbove (t : DiskTree) (i : Nat) (h : ChildrenAboveP t) :
    ChildrenAboveP (aggStep t i) := by
  intro j nd' c hget hc
  obtain ⟨nd, hnd, hch, -⟩ := aggStep_shape t i j nd' hget
  exact h j nd c hnd (hch ▸ hc)

lemma foldl_aggStep_get_not_mem (l : List Nat) :
    ∀ (t : DiskTree) (i : Nat), i ∉ l → (l.foldl aggStep t).get i = t.get i := by
  induction l with
  | nil => intro t i _; rfl
  | cons x xs ih =>
    intro t i hi
    rw [List.foldl_cons, ih (aggStep t x) i (fun h => hi (List.mem_cons_of_mem x h)),
      aggStep_get_ne t x i (fun h => hi (h ▸ List.mem_cons_self x xs))]

lemma foldl_aggStep_length (l : List Nat) :
    ∀ t : DiskTree, (l.foldl aggStep t).nodes.length = t.nodes.length := by
  induction l with
  | nil => intro t; rfl
  | cons x xs ih =>
    intro t
    rw [List.foldl_cons, ih (aggStep t x), aggStep_length t x]

lemma childSizeSum_congr (t1 t2 : DiskTree) (cs : List Nat)
    (h : ∀ c ∈ cs, t1.get c = t2.get c) : childSizeSum t1 cs = childSizeSum t2 cs := by
  unfold childSizeSum
  exact List.foldl_ext _ _ 0 (fun acc c hc => by rw [h c hc])

lemma childFileSum_congr (t1 t2 : DiskTree) (cs : List Nat)
    (h : ∀ c ∈ cs, t1.get c = t2.get c) : childFileSum t1 cs = childFileSum t2 cs := by
  unfold childFileSum
  exact List.foldl_ext _ _ 0 (fun acc c hc => by rw [h c hc])

/-- Core of the single-pass bottom-up aggregation: processing a strictly
decreasing list of indices over a tree whose children sit above their
parents leaves every processed live directory holding the sums of its
children's final values. -/
lemma agg_fold_correct (l : List Nat) :
    ∀ t : DiskTree, ChildrenAboveP t → l.Pairwise (· > ·) →
      ∀ i ∈ l, ∀ nd, (l.foldl aggStep t).get i = some nd →
        nd.kind.is_directory = true →
        nd.size = childSizeSum (l.foldl aggStep t) nd.children ∧
        nd.file_count = childFileSum (l.foldl aggStep t) nd.children := by
  induction l with
  | nil => intro t _ _ i hi; exact absurd hi (by simp)
  | cons i0 rest ih =>
    intro t hCA hpw i hi nd hnd hdir
    rcases List.pairwise_cons.mp hpw with ⟨hgt, hpw'⟩
    rcases List.mem_cons.mp hi with rfl | hirest
    · -- the head: its slot was finalized by the first step and never
      -- touched again, and its children (all above it) were already final
      have hnotmem : i ∉ rest := fun hmem => absurd (hgt i hmem) (by omega)
      have hfix : ((i :: rest).foldl aggStep t).get i = (aggStep t i).get i := by
        rw [List.foldl_cons]
        exact foldl_aggStep_get_not_mem rest (aggStep t i) i hnotmem
      rw [hfix] at hnd
      unfold aggStep at hnd
      cases hg : t.get i with
      | none => simp only [hg] at hnd; exact absurd hnd (by simp)
      | some n =>
        simp only [hg] at hnd
        by_cases hd : n.kind.is_directory = true
        · rw [if_pos hd] at hnd
          rw [get_modifyNode_self t i _ n hg] at hnd
          obtain rfl := (Option.some_inj.mp hnd).symm
          have hchfix : ∀ c ∈ n.children, ((i :: rest).foldl aggStep t).get c = t.get c := by
            intro c hc
            have hcgt : i < c := hCA i n c hg hc
            have hcnot : c ∉ i :: rest := by
              intro hmem
              rcases List.mem_cons.mp hmem with rfl | hmem2
              · omega
              · exact absurd (hgt c hmem2) (by omega)
            exact foldl_aggStep_get_not_mem (i :: rest) t c hcnot
          constructor
          · show childSizeSum t n.children = childSizeSum _ _
            exact childSizeSum_congr t _ n.children (fun c hc => (hchfix c hc).symm)
          · show childFileSum t n.children = childFileSum _ _
            exact childFileSum_congr t _ n.children (fun c hc => (hchfix c hc).symm)
        · rw [if_neg hd, hg] at hnd
          rw [← Option.some_inj.mp hnd] at hdir
          exact absurd hdir (by simp [hd])
    · -- an element further down the list: induction hypothesis on the
      -- tree after the first step
      rw [List.foldl_cons] at hnd ⊢
      exact ih (aggStep t i0) (aggStep_childrenAbove t i0 hCA) hpw' i hirest nd hnd hdir

/-- A build operation on the tree: add_node with the given arguments, or
set_size. -/
inductive BuildOp where
  | add : String → NodeKind → DPath → Nat → BuildOp
  | setSize : Nat → Nat → BuildOp
deriving DecidableEq, Repr

def applyOp (t : DiskTree) : BuildOp → DiskTree
  | .add name kind path parent => (t.add_node name kind path parent).1
  | .setSize id s => t.set_size id s

/-- A tree built from the constructor and a sequence of operations. -/
def buildTree (root_path : DPath) (ops : List BuildOp) : DiskTree :=
  ops.foldl applyOp (DiskTree.new root_path)

/-- Every add in the sequence names a parent that is live at the moment
of the call (the scanner's discipline). -/
def liveParentsOk : DiskTree → List BuildOp → Bool
  | _, [] => true
  | t, op :: rest =>
    (match op with
      | .add _ _ _ parent => (t.get parent).isSome
      | .setSize _ _ => true) && liveParentsOk (applyOp t op) rest

lemma new_childrenAbove (root_path : DPath) : ChildrenAboveP (DiskTree.new root_path) := by
  intro i nd c hget hc
  cases i with
  | zero =>
    simp only [DiskTree.new, get, List.getElem?_cons_zero, Option.some.injEq] at hget
    rw [← hget] at hc
    exact absurd hc (by simp [TreeNode.new])
  | succ m => simp [DiskTree.new, get] at hget

lemma get_append_lt (t : DiskTree) (o : Option TreeNode) (j : Nat)
    (h : j < t.nodes.length) :
    (DiskTree.mk (t.nodes ++ [o]) t.root_path).get j = t.get j := by
  unfold get
  simp only [List.getElem?_append_left h]

lemma get_append_self (t : DiskTree) (o : Option TreeNode) :
    (DiskTree.mk (t.nodes ++ [o]) t.root_path).get t.nodes.length = o.join := by
  unfold get
  rw [List.getElem?_append_right (le_refl _)]
  simp only [Nat.sub_self]
  cases o <;> simp [Option.join]

lemma get_append_ne (t : DiskTree) (o : Option TreeNode) (j : Nat)
    (h : j ≠ t.nodes.length) :
    (DiskTree.mk (t.nodes ++ [o]) t.root_path).get j = t.get j := by
  rcases Nat.lt_or_ge j t.nodes.length with hlt | hge
  · exact get_append_lt t o j hlt
  · unfold get
    rw [List.getElem?_eq_none (by simp; omega), List.getElem?_eq_none (by omega)]

/-- The effect of add_node on every slot: the parent (when live) gains
the new id at the end of its children, the new slot holds the fresh
node, and every other slot is untouched. -/
lemma add_node_get (t : DiskTree) (name : String) (kind : NodeKind) (path : DPath)
    (parent : Nat) (pnode : TreeNode) (hp : t.get parent = some pnode) :
    (((t.add_node name kind path parent).1).get parent =
      some { pnode with children := pnode.children ++ [t.nodes.length] }) ∧
    (((t.add_node name kind path parent).1).get t.nodes.length =
      some (TreeNode.new t.nodes.length name kind path (some parent) (pnode.depth + 1))) ∧
    (∀ j, j ≠ parent → j ≠ t.nodes.length →
      ((t.add_node name kind path parent).1).get j = t.get j) := by
  have hplt : parent < t.nodes.length := get_lt_length t parent pnode hp
  unfold add_node
  simp only [hp]
  set newNode := TreeNode.new t.nodes.length name kind path (some parent) (pnode.depth + 1)
    with hnew
  set t1 : DiskTree := { t with nodes := t.nodes ++ [some newNode] } with ht1
  have h1p : t1.get parent = some pnode := (get_append_lt t (some newNode) parent hplt).trans hp
  refine ⟨?_, ?_, ?_⟩
  · exact get_modifyNode_self t1 parent _ pnode h1p
  · rw [get_modifyNode_ne t1 parent t.nodes.length _ (by omega)]
    exact get_append_self t (some newNode)
  · intro j hjp hjl
    rw [get_modifyNode_ne t1 parent j _ hjp]
    exact get_append_ne t (some newNode) j hjl

lemma add_node_childrenAbove (t : DiskTree) (name : String) (kind : NodeKind)
    (path : DPath) (parent : Nat) (hCA : ChildrenAboveP t)
    (hlive : (t.get parent).isSome = true) :
    ChildrenAboveP (t.add_node name kind path parent).1 := by
  obtain ⟨pnode, hp⟩ := Option.isSome_iff_exists.mp hlive
  have hplt : parent < t.nodes.length := get_lt_length t parent pnode hp
  obtain ⟨hgp, hgn, hgo⟩ := add_node_get t name kind path parent pnode hp
  intro j nd c hget hc
  by_cases hjp : j = parent
  · subst hjp
    rw [hgp] at hget
    obtain rfl := (Option.some_inj.mp hget).symm
    simp only [List.mem_append, List.mem_singleton] at hc
    rcases hc with hc | rfl
    · exact hCA j pnode c hp hc
    · omega
  · by_cases hjl : j = t.nodes.length
    · subst hjl
      rw [hgn] at hget
      obtain rfl := (Option.some_inj.mp hget).symm
      exact absurd hc (by simp [TreeNode.new])
    · rw [hgo j hjp hjl] at hget
      exact hCA j nd c hget hc

lemma set_size_childrenAbove (t : DiskTree) (id s : Nat) (hCA : ChildrenAboveP t) :
    ChildrenAboveP (t.set_size id s) := by
  intro j nd c hget hc
  unfold set_size at hget
  by_cases hj : j = id
  · subst hj
    cases hg : t.get j with
    | none =>
      simp only [modifyNode, hg] at hget
      exact absurd hget (by simp)
    | some n =>
      rw [get_modifyNode_self t j _ n hg] at hget
      obtain rfl := (Option.some_inj.mp hget).symm
      exact hCA j n c hg hc
  · rw [get_modifyNode_ne t id j _ hj] at hget
    exact hCA j nd c hget hc


lemma buildTree_childrenAbove (ops : List BuildOp) :
    ∀ t : DiskTree, ChildrenAboveP t → liveParentsOk t ops = true →
      ChildrenAboveP (ops.foldl applyOp t) := by
  induction ops with
  | nil => intro t h _; exact h
  | cons op rest ih =>
    intro t hCA hlp
    unfold liveParentsOk at hlp
    rw [Bool.and_eq_true] at hlp
    rw [List.foldl_cons]
    refine ih (applyOp t op) ?_ hlp.2
    cases op with
    | add name kind path parent =>
      exact add_node_childrenAbove t name kind path parent hCA hlp.1
    | setSize id s => exact set_size_childrenAbove t id s hCA

/-- C1: on any tree built from the constructor by add_node calls whose
parents are live at the time of each call (with set_size allowed, as the
scanner uses it), aggregate_sizes leaves every live directory holding
exactly the sum of its live children's sizes and file counts. -/
theorem aggregate_sizes_spec (root_path : DPath) (ops : List BuildOp)
    (hlive : liveParentsOk (DiskTree.new root_path) ops = true) :
    ∀ i nd, ((buildTree root_path ops).aggregate_sizes).get i = some nd →
      nd.kind.is_directory = true →
      nd.size = childSizeSum ((buildTree root_path ops).aggregate_sizes) nd.children ∧
      nd.file_count = childFileSum ((buildTree root_path ops).aggregate_sizes) nd.children := by
  intro i nd hget hdir
  set t := buildTree root_path ops with ht
  have hCA : ChildrenAboveP t :=
    buildTree_childrenAbove ops (DiskTree.new root_path) (new_childrenAbove root_path) hlive
  have hpw : ((List.range t.nodes.length).reverse).Pairwise (· > ·) :=
    List.pairwise_reverse.mpr (List.pairwise_lt_range t.nodes.length)
  have hlen : ((List.range t.nodes.length).reverse.foldl aggStep t).nodes.length =
      t.nodes.length := foldl_aggStep_length _ t
  have hmem : i ∈ (List.range t.nodes.length).reverse := by
    rw [List.mem_reverse, List.mem_range]
    have := get_lt_length _ i nd hget
    unfold aggregate_sizes at this
    omega
  exact agg_fold_correct _ t hCA hpw i hmem nd hget hdir

/-- The build sequence for the witness: a file of size 100 under the
root and a directory with a file of size 200 inside. -/
def aggWitnessOps : List BuildOp :=
  [ BuildOp.add "a" NodeKind.File ["", "a"] 0
  , BuildOp.add "b" NodeKind.Directory ["", "b"] 0
  , BuildOp.add "c" NodeKind.File ["", "b", "c"] 2
  , BuildOp.setSize 1 100
  , BuildOp.setSize 3 200 ]

/-- The directory node b after aggregation: size 200, one file. -/
def aggWitnessDir : TreeNode :=
  { id := 2, name := "b", kind := NodeKind.Directory, size := 200, file_count := 1,
    parent := some 0, children := [3], depth := 1, is_expanded := false,
    path := ["", "b"], mtime := none }

/-- Witness for aggregate_sizes_spec at a concrete build sequence. -/
theorem aggregate_sizes_witness :
    (liveParentsOk (DiskTree.new [""]) aggWitnessOps = true) ∧
    (((buildTree [""] aggWitnessOps).aggregate_sizes).get 2 = some aggWitnessDir) ∧
    (aggWitnessDir.kind.is_directory = true) ∧
    (aggWitnessDir.size =
      childSizeSum ((buildTree [""] aggWitnessOps).aggregate_sizes) aggWitnessDir.children ∧
     aggWitnessDir.file_count =
      childFileSum ((buildTree [""] aggWitnessOps).aggregate_sizes) aggWitnessDir.children) :=
  ⟨by decide, by decide, by decide,
    aggregate_sizes_spec [""] aggWitnessOps (by decide) 2 aggWitnessDir (by decide) (by decide)⟩

end DiskTree

/-! ## Removal (C2): relations and frame lemmas -/

/-- One step down the tree: b is a child of the live node a. -/
def ChildStep (t : DiskTree) (a b : Nat) : Prop :=
  ∃ nd, t.get a = some nd ∧ b ∈ nd.children

lemma le_of_reflTransGen_dec {R : Nat → Nat → Prop} (hdec : ∀ x y, R x y → y < x)
    {a b : Nat} (h : Relation.ReflTransGen R a b) : b ≤ a := by
  induction h with
  | refl => exact le_refl a
  | tail _ hbc ih => exact le_trans (le_of_lt (hdec _ _ hbc)) ih

lemma ge_of_reflTransGen_inc {R : Nat → Nat → Prop} (hinc : ∀ x y, R x y → x < y)
    {a b : Nat} (h : Relation.ReflTransGen R a b) : a ≤ b := by
  induction h with
  | refl => exact le_refl a
  | tail _ hbc ih => exact le_trans ih (le_of_lt (hinc _ _ hbc))

lemma reflTransGen_transfer_le {R S : Nat → Nat → Prop} (bound : Nat)
    (hdec : ∀ x y, R x y → y < x)
    (himp : ∀ x y, x ≤ bound → R x y → S x y) :
    ∀ a b, a ≤ bound → Relation.ReflTransGen R a b → Relation.ReflTransGen S a b := by
  intro a b ha h
  induction h with
  | refl => exact Relation.ReflTransGen.refl
  | tail hab hbc ih =>
    have hb := le_of_reflTransGen_dec hdec hab
    exact Relation.ReflTransGen.tail ih (himp _ _ (le_trans hb ha) hbc)

lemma reflTransGen_transfer_ge {R S : Nat → Nat → Prop} (bound : Nat)
    (hinc : ∀ x y, R x y → x < y)
    (himp : ∀ x y, bound ≤ x → R x y → S x y) :
    ∀ a b, bound ≤ a → Relation.ReflTransGen R a b → Relation.ReflTransGen S a b := by
  intro a b ha h
  induction h with
  | refl => exact Relation.ReflTransGen.refl
  | tail hab hbc ih =>
    have hb := ge_of_reflTransGen_inc hinc hab
    exact Relation.ReflTransGen.tail ih (himp _ _ (le_trans ha hb) hbc)

lemma childStep_lt (t : DiskTree) (hca : childrenAboveOk t = true) :
    ∀ x y, ChildStep t x y → x < y := by
  rintro x y ⟨nd, hget, hc⟩
  exact childrenAbove_spec t hca x nd y hget hc

lemma stepUp_lt' (t : DiskTree) (hpb : parentsBelowOk t = true) :
    ∀ x y, StepUp t x y → y < x := by
  rintro x y ⟨nd, hget, hpar⟩
  exact parentsBelow_spec t hpb x nd y hget hpar

namespace DiskTree

lemma get_clearNode_self (t : DiskTree) (i : Nat) : (t.clearNode i).get i = none := by
  unfold clearNode get
  rcases Nat.lt_or_ge i t.nodes.length with hlt | hge
  · simp [List.getElem?_set_self', hlt]
  · rw [List.getElem?_eq_none (by simpa using hge)]

lemma get_clearNode_ne (t : DiskTree) (i j : Nat) (h : j ≠ i) :
    (t.clearNode i).get j = t.get j := by
  unfold clearNode get
  simp only [List.getElem?_set_ne (fun he => h he.symm)]

lemma clearNode_length (t : DiskTree) (i : Nat) :
    (t.clearNode i).nodes.length = t.nodes.length := by
  unfold clearNode
  simp

lemma foldl_clearNode_length (l : List Nat) :
    ∀ t : DiskTree, (l.foldl clearNode t).nodes.length = t.nodes.length := by
  induction l with
  | nil => intro t; rfl
  | cons x xs ih => intro t; rw [List.foldl_cons, ih, clearNode_length]

lemma get_foldl_clearNode_not_mem (l : List Nat) :
    ∀ (t : DiskTree) (i : Nat), i ∉ l → (l.foldl clearNode t).get i = t.get i := by
  induction l with
  | nil => intro t i _; rfl
  | cons x xs ih =>
    intro t i hi
    rw [List.foldl_cons, ih _ i (fun h => hi (List.mem_cons_of_mem x h)),
      get_clearNode_ne t x i (fun h => hi (h ▸ List.mem_cons_self x xs))]

lemma get_foldl_clearNode_mem (l : List Nat) :
    ∀ (t : DiskTree) (i : Nat), i ∈ l → (l.foldl clearNode t).get i = none := by
  induction l with
  | nil => intro t i hi; exact absurd hi (by simp)
  | cons x xs ih =>
    intro t i hi
    rw [List.foldl_cons]
    by_cases hmem : i ∈ xs
    · exact ih _ i hmem
    · rcases List.mem_cons.mp hi with rfl | hmem2
      · rw [get_foldl_clearNode_not_mem xs _ i hmem]
        exact get_clearNode_self t i
      · exact absurd hmem2 hmem

lemma collectDesc_mem_gt (t : DiskTree) (hca : childrenAboveOk t = true) :
    ∀ (fuel id x : Nat), x ∈ collectDesc t fuel id → id < x := by
  intro fuel
  induction fuel with
  | zero => intro id x hx; exact absurd hx (by simp [collectDesc])
  | succ m ih =>
    intro id x hx
    unfold collectDesc at hx
    cases hg : t.get id with
    | none => rw [hg] at hx; exact absurd hx (by simp)
    | some n =>
      rw [hg] at hx
      simp only [List.mem_flatMap] at hx
      obtain ⟨c, hc, hxc⟩ := hx
      have hidc : id < c := childrenAbove_spec t hca id n c hg hc
      rcases List.mem_cons.mp hxc with rfl | hxc2
      · exact hidc
      · exact lt_trans hidc (ih c x hxc2)

lemma collectDesc_sound (t : DiskTree) :
    ∀ (fuel id x : Nat), x ∈ collectDesc t fuel id →
      Relation.TransGen (ChildStep t) id x := by
  intro fuel
  induction fuel with
  | zero => intro id x hx; exact absurd hx (by simp [collectDesc])
  | succ m ih =>
    intro id x hx
    unfold collectDesc at hx
    cases hg : t.get id with
    | none => rw [hg] at hx; exact absurd hx (by simp)
    | some n =>
      rw [hg] at hx
      simp only [List.mem_flatMap] at hx
      obtain ⟨c, hc, hxc⟩ := hx
      have hstep : ChildStep t id c := ⟨n, hg, hc⟩
      rcases List.mem_cons.mp hxc with rfl | hxc2
      · exact Relation.TransGen.single hstep
      · exact Relation.TransGen.head hstep (ih c x hxc2)

lemma parentsBelowOk_setNode (t : DiskTree) (i : Nat) (nd nd' : TreeNode)
    (hget : t.get i = some nd) (hpar : nd'.parent = nd.parent)
    (hpb : parentsBelowOk t = true) : parentsBelowOk (t.setNode i nd') = true := by
  unfold parentsBelowOk at hpb ⊢
  rw [setNode_length]
  apply List.all_eq_true.mpr
  intro j hj
  have horig := List.all_eq_true.mp hpb j hj
  rw [List.mem_range] at hj
  by_cases hji : j = i
  · subst hji
    rw [get_setNode_self t j nd' (get_lt_length t j nd hget)]
    simp only [hget] at horig
    simp only [hpar]
    exact horig
  · rw [get_setNode_ne t i j _ hji]
    exact horig

lemma stepUp_setNode_iff (t : DiskTree) (i : Nat) (nd nd' : TreeNode)
    (hget : t.get i = some nd) (hpar : nd'.parent = nd.parent) :
    ∀ x y, StepUp (t.setNode i nd') x y ↔ StepUp t x y := by
  intro x y
  by_cases hxi : x = i
  · subst hxi
    constructor
    · rintro ⟨m0, hm, hp⟩
      rw [get_setNode_self t x nd' (get_lt_length t x nd hget)] at hm
      have he : nd' = m0 := Option.some_inj.mp hm
      rw [← he] at hp
      exact ⟨nd, hget, (hpar.symm.trans hp).symm.symm⟩
    · rintro ⟨m0, hm, hp⟩
      have he : m0 = nd := Option.some_inj.mp (hm.symm.trans hget)
      rw [he] at hp
      exact ⟨nd', get_setNode_self t x nd' (get_lt_length t x nd hget), hpar.trans hp⟩
  · constructor
    · rintro ⟨m0, hm, hp⟩
      rw [get_setNode_ne t i x _ hxi] at hm
      exact ⟨m0, hm, hp⟩
    · rintro ⟨m0, hm, hp⟩
      exact ⟨m0, (get_setNode_ne t i x _ hxi).trans hm, hp⟩

lemma subtractChain_spec (s f : Nat) :
    ∀ (fuel : Nat) (t : DiskTree) (cur : Option Nat),
      parentsBelowOk t = true →
      (∀ nid, cur = some nid → nid < fuel) →
      ((∀ j nd, t.get j = some nd →
        (∃ nid, cur = some nid ∧ Relation.ReflTransGen (StepUp t) nid j) →
        (subtractChain t s f fuel cur).get j =
          some { nd with size := nd.size - s, file_count := nd.file_count - f }) ∧
      (∀ j, ¬ (∃ nid, cur = some nid ∧ Relation.ReflTransGen (StepUp t) nid j) →
        (subtractChain t s f fuel cur).get j = t.get j) ∧
      (∀ j, t.get j = none → (subtractChain t s f fuel cur).get j = none)) := by
  intro fuel
  induction fuel with
  | zero =>
    intro t cur hpb hbound
    refine ⟨?_, ?_, ?_⟩
    · rintro j nd hj ⟨nid, hcur, hch⟩
      subst hcur
      exact absurd (hbound nid rfl) (by omega)
    · intro j hnc
      cases cur <;> rfl
    · intro j hj
      cases cur with
      | none => exact hj
      | some nid => exact absurd (hbound nid rfl) (by omega)
  | succ m ih =>
    intro t cur hpb hbound
    cases cur with
    | none =>
      refine ⟨?_, ?_, ?_⟩
      · rintro j nd hj ⟨nid, h, hch⟩
        exact absurd h (by simp)
      · intro j hnc
        rfl
      · intro j hj
        exact hj
    | some nid =>
      cases hg : t.get nid with
      | none =>
        have hres : subtractChain t s f (m + 1) (some nid) = t := by
          unfold subtractChain
          rw [hg]
        refine ⟨?_, ?_, ?_⟩
        · rintro j nd hj ⟨nid2a, hnid2a, hchain⟩
          obtain rfl := Option.some_inj.mp hnid2a
          rcases hchain.cases_head with rfl | ⟨c, ⟨m0, hm, hmp⟩, hrest⟩
          · exact absurd (hg.symm.trans hj) (by simp)
          · exact absurd (hg.symm.trans hm) (by simp)
        · intro j hnc
          rw [hres]
        · intro j hj
          rw [hres]
          exact hj
      | some nd0 =>
        set nd0' : TreeNode :=
          { nd0 with size := nd0.size - s, file_count := nd0.file_count - f } with hnd0'
        set t' := t.setNode nid nd0' with ht'
        have hres0 : subtractChain t s f (m + 1) (some nid) =
            match t.get nid with
            | some nd => subtractChain
                (t.setNode nid { nd with size := nd.size - s, file_count := nd.file_count - f })
                s f m nd.parent
            | none => t := rfl
        have hres : subtractChain t s f (m + 1) (some nid) =
            subtractChain t' s f m nd0.parent := by
          rw [hres0, hg]
        have hpb' : parentsBelowOk t' = true :=
          parentsBelowOk_setNode t nid nd0 nd0' hg rfl hpb
        have hbound' : ∀ p, nd0.parent = some p → p < m := by
          intro p hp
          have hplt : p < nid := parentsBelow_spec t hpb nid nd0 p hg hp
          have := hbound nid rfl
          omega
        have hstepiff : ∀ x y, StepUp t' x y ↔ StepUp t x y :=
          stepUp_setNode_iff t nid nd0 nd0' hg rfl
        have hchainiff : ∀ a b,
            Relation.ReflTransGen (StepUp t') a b ↔ Relation.ReflTransGen (StepUp t) a b := by
          intro a b
          constructor
          · exact Relation.ReflTransGen.mono (fun x y h => (hstepiff x y).mp h)
          · exact Relation.ReflTransGen.mono (fun x y h => (hstepiff x y).mpr h)
        obtain ⟨ih1, ih2, ih3⟩ := ih t' nd0.parent hpb' hbound'
        have hchain_split : ∀ j, Relation.ReflTransGen (StepUp t) nid j →
            j = nid ∨ ∃ p, nd0.parent = some p ∧ Relation.ReflTransGen (StepUp t) p j := by
          intro j hchain
          rcases hchain.cases_head with rfl | ⟨c, ⟨m0, hm, hp⟩, hcx⟩
          · exact Or.inl rfl
          · obtain rfl := Option.some_inj.mp (hg.symm.trans hm)
            exact Or.inr ⟨c, hp, hcx⟩
        have hp_chain_lt : ∀ p j, nd0.parent = some p →
            Relation.ReflTransGen (StepUp t) p j → j < nid := by
          intro p j hp hchain
          have hjle : j ≤ p := le_of_reflTransGen_dec (stepUp_lt' t hpb) hchain
          have := parentsBelow_spec t hpb nid nd0 p hg hp
          omega
        have hnidlen := get_lt_length t nid nd0 hg
        refine ⟨?_, ?_, ?_⟩
        · rintro j nd hj ⟨nid2, hnid2, hchain⟩
          obtain rfl := Option.some_inj.mp hnid2
          rw [hres]
          rcases hchain_split j hchain with rfl | ⟨p, hp, hpchain⟩
          · obtain rfl := Option.some_inj.mp (hg.symm.trans hj)
            have hnochain : ¬ (∃ p', nd0.parent = some p' ∧
                Relation.ReflTransGen (StepUp t') p' j) := by
              rintro ⟨p', hp', hchain'⟩
              exact absurd (hp_chain_lt p' j hp' ((hchainiff p' j).mp hchain'))
                (by omega)
            rw [ih2 j hnochain, ht', get_setNode_self t j nd0' hnidlen]
          · have hjne : j ≠ nid := by
              have := hp_chain_lt p j hp hpchain
              omega
            have hj' : t'.get j = some nd := by
              rw [ht', get_setNode_ne t nid j _ hjne]
              exact hj
            exact ih1 j nd hj' ⟨p, hp, (hchainiff p j).mpr hpchain⟩
        · rintro j hnochain
          have hjne : j ≠ nid := fun he =>
            hnochain ⟨nid, rfl, he ▸ Relation.ReflTransGen.refl⟩
          rw [hres]
          have hnochain' : ¬ (∃ p, nd0.parent = some p ∧
              Relation.ReflTransGen (StepUp t') p j) := by
            rintro ⟨p, hp, hchain'⟩
            exact hnochain ⟨nid, rfl,
              Relation.ReflTransGen.head ⟨nd0, hg, hp⟩ ((hchainiff p j).mp hchain')⟩
          rw [ih2 j hnochain', ht', get_setNode_ne t nid j _ hjne]
        · intro j hj
          have hjne : j ≠ nid := fun he => by
            rw [he] at hj
            exact absurd (hg.symm.trans hj) (by simp)
          rw [hres]
          apply ih3 j
          rw [ht', get_setNode_ne t nid j _ hjne]
          exact hj

lemma parentsBelowOk_of_get (t t' : DiskTree) (hlen : t'.nodes.length = t.nodes.length)
    (h : ∀ j nd', t'.get j = some nd' → ∃ nd, t.get j = some nd ∧ nd'.parent = nd.parent)
    (hpb : parentsBelowOk t = true) : parentsBelowOk t' = true := by
  unfold parentsBelowOk at hpb ⊢
  rw [hlen]
  apply List.all_eq_true.mpr
  intro j hj
  cases hget' : t'.get j with
  | none => simp only [hget']
  | some nd' =>
    obtain ⟨nd, hnd, hpar⟩ := h j nd' hget'
    have horig := List.all_eq_true.mp hpb j hj
    simp only [hnd] at horig
    simp only [hget', hpar]
    exact horig

lemma childrenAboveOk_of_get (t t' : DiskTree) (hlen : t'.nodes.length = t.nodes.length)
    (h : ∀ j nd', t'.get j = some nd' →
      ∃ nd, t.get j = some nd ∧ ∀ c ∈ nd'.children, c ∈ nd.children)
    (hca : childrenAboveOk t = true) : childrenAboveOk t' = true := by
  unfold childrenAboveOk at hca ⊢
  rw [hlen]
  apply List.all_eq_true.mpr
  intro j hj
  cases hget' : t'.get j with
  | none => simp only [hget']
  | some nd' =>
    obtain ⟨nd, hnd, hsub⟩ := h j nd' hget'
    have horig := List.all_eq_true.mp hca j hj
    simp only [hnd] at horig
    simp only [hget']
    exact List.all_eq_true.mpr
      (fun c hc => List.all_eq_true.mp horig c (hsub c hc))

lemma get_foldl_clearNode_cases (l : List Nat) (t : DiskTree) (j : Nat) :
    (l.foldl clearNode t).get j = none ∨ (l.foldl clearNode t).get j = t.get j := by
  by_cases hj : j ∈ l
  · exact Or.inl (get_foldl_clearNode_mem l t j hj)
  · exact Or.inr (get_foldl_clearNode_not_mem l t j hj)

/-- A step only looks at the slot of its source: equal slots give equal
steps. -/
lemma stepUp_congr_get (tA tB : DiskTree) (x : Nat) (h : tA.get x = tB.get x) :
    ∀ y, StepUp tA x y ↔ StepUp tB x y := by
  intro y
  constructor
  · rintro ⟨nd, hget, hp⟩
    exact ⟨nd, h ▸ hget, hp⟩
  · rintro ⟨nd, hget, hp⟩
    exact ⟨nd, h.symm ▸ hget, hp⟩

lemma childStep_congr_get (tA tB : DiskTree) (x : Nat) (h : tA.get x = tB.get x) :
    ∀ y, ChildStep tA x y ↔ ChildStep tB x y := by
  intro y
  constructor
  · rintro ⟨nd, hget, hc⟩
    exact ⟨nd, h ▸ hget, hc⟩
  · rintro ⟨nd, hget, hc⟩
    exact ⟨nd, h.symm ▸ hget, hc⟩

lemma modifyNode_eq_setNode (t : DiskTree) (i : Nat) (f : TreeNode → TreeNode)
    (nd : TreeNode) (h : t.get i = some nd) : t.modifyNode i f = t.setNode i (f nd) := by
  unfold modifyNode
  rw [h]

lemma modifyNode_dead (t : DiskTree) (i : Nat) (f : TreeNode → TreeNode)
    (h : t.get i = none) : t.modifyNode i f = t := by
  unfold modifyNode
  rw [h]

lemma collectDesc_adequate (t : DiskTree) (hca : childrenAboveOk t = true) :
    ∀ (fuel id : Nat), t.nodes.length - id ≤ fuel →
      ∀ x, Relation.ReflTransGen (ChildStep t) id x →
        x = id ∨ x ∈ collectDesc t fuel id := by
  intro fuel
  induction fuel with
  | zero =>
    intro id hfuel x hx
    rcases hx.cases_head with rfl | ⟨c, ⟨nd, hget, -⟩, -⟩
    · exact Or.inl rfl
    · have := get_lt_length t id nd hget
      omega
  | succ m ih =>
    intro id hfuel x hx
    rcases hx.cases_head with rfl | ⟨c, hstep, hcx⟩
    · exact Or.inl rfl
    · obtain ⟨nd, hget, hc⟩ := hstep
      have hidlen := get_lt_length t id nd hget
      have hidc : id < c := childrenAbove_spec t hca id nd c hget hc
      right
      unfold collectDesc
      rw [hget]
      simp only [List.mem_flatMap]
      refine ⟨c, hc, ?_⟩
      rcases ih c (by omega) x hcx with rfl | hmem
      · exact List.mem_cons_self _ _
      · exact List.mem_cons_of_mem _ hmem


/-- C2: remove_node returns 0 and leaves the tree unchanged for the root
or a dead slot; otherwise it tombstones id and every former descendant,
unlinks id from its parent's children, decreases every ancestor's size
and file_count by exactly the removed node's pre-removal values with
saturating (Nat) subtraction, leaves every other node untouched, and
returns the pre-removal size. -/
theorem remove_node_spec (t : DiskTree) (id : Nat)
    (hpb : parentsBelowOk t = true) (hca : childrenAboveOk t = true) :
    (id = 0 → t.remove_node id = (t, 0)) ∧
    (t.get id = none → t.remove_node id = (t, 0)) ∧
    (∀ nd0, t.get id = some nd0 → id ≠ 0 →
      (t.remove_node id).2 = nd0.size ∧
      (∀ d, Relation.ReflTransGen (ChildStep t) id d →
        ((t.remove_node id).1).get d = none) ∧
      (∀ pid pnd', nd0.parent = some pid → ((t.remove_node id).1).get pid = some pnd' →
        id ∉ pnd'.children) ∧
      (∀ a and0, Relation.TransGen (StepUp t) id a → t.get a = some and0 →
        ∃ and', ((t.remove_node id).1).get a = some and' ∧
          and'.size = and0.size - nd0.size ∧
          and'.file_count = and0.file_count - nd0.file_count) ∧
      (∀ j, ¬ Relation.ReflTransGen (ChildStep t) id j →
        ¬ Relation.TransGen (StepUp t) id j →
        ((t.remove_node id).1).get j = t.get j)) := by
  refine ⟨?_, ?_, ?_⟩
  · intro h0
    unfold remove_node
    rw [if_pos h0]
  · intro hnone
    unfold remove_node
    by_cases h0 : id = 0
    · rw [if_pos h0]
    · rw [if_neg h0, hnone]
  intro nd0 hg hid0
  have hidlen : id < t.nodes.length := get_lt_length t id nd0 hg
  set t1 := unlinkFromParent t id nd0.parent with ht1
  set toRem := id :: collectDesc t1 t1.nodes.length id with htr
  set t2 := toRem.foldl clearNode t1 with ht2
  have hpair : t.remove_node id =
      (subtractChain t2 nd0.size nd0.file_count t2.nodes.length nd0.parent, nd0.size) := by
    unfold remove_node
    rw [if_neg hid0, hg]
  -- the unlink step only touches the parent slot and only its children
  have hget1_ne : ∀ x, (∀ pid, nd0.parent = some pid → x ≠ pid) → t1.get x = t.get x := by
    intro x hx
    rw [ht1]
    cases hpar : nd0.parent with
    | none => rfl
    | some pid => exact get_modifyNode_ne t pid x _ (hx pid hpar)
  have hlen1 : t1.nodes.length = t.nodes.length := by
    rw [ht1]
    cases hpar : nd0.parent with
    | none => rfl
    | some pid => exact modifyNode_length t pid _
  have hshape1 : ∀ j nd', t1.get j = some nd' →
      ∃ nd, t.get j = some nd ∧ nd'.parent = nd.parent ∧
        ∀ c ∈ nd'.children, c ∈ nd.children := by
    intro j nd' hget'
    rw [ht1] at hget'
    cases hpar : nd0.parent with
    | none =>
      rw [hpar] at hget'
      simp only [unlinkFromParent] at hget'
      exact ⟨nd', hget', rfl, fun c hc => hc⟩
    | some pid =>
      rw [hpar] at hget'
      simp only [unlinkFromParent] at hget'
      by_cases hjp : j = pid
      · subst hjp
        cases hpj : t.get j with
        | none => rw [modifyNode_dead t j _ hpj] at hget'; exact absurd (hpj.symm.trans hget') (by simp)
        | some pnode =>
          rw [modifyNode_eq_setNode t j _ pnode hpj,
            get_setNode_self t j _ (get_lt_length t j pnode hpj)] at hget'
          refine ⟨pnode, rfl, ?_, ?_⟩
          · rw [← Option.some_inj.mp hget']
          · intro c hc
            rw [← Option.some_inj.mp hget'] at hc
            exact (List.mem_filter.mp hc).1
      · rw [get_modifyNode_ne t pid j _ hjp] at hget'
        exact ⟨nd', hget', rfl, fun c hc => hc⟩
  have hca1 : childrenAboveOk t1 = true :=
    childrenAboveOk_of_get t t1 hlen1
      (fun j nd' h => (hshape1 j nd' h).imp (fun nd hh => ⟨hh.1, hh.2.2⟩)) hca
  have hpb1 : parentsBelowOk t1 = true :=
    parentsBelowOk_of_get t t1 hlen1
      (fun j nd' h => (hshape1 j nd' h).imp (fun nd hh => ⟨hh.1, hh.2.1⟩)) hpb
  have htoRem_ge : ∀ m ∈ toRem, id ≤ m := by
    intro m hm
    rw [htr] at hm
    rcases List.mem_cons.mp hm with rfl | hm2
    · exact le_refl m
    · exact le_of_lt (collectDesc_mem_gt t1 hca1 t1.nodes.length id m hm2)
  have hlen2 : t2.nodes.length = t.nodes.length := by
    rw [ht2, foldl_clearNode_length, hlen1]
  have hget2_low : ∀ x, x < id → t2.get x = t1.get x := by
    intro x hx
    rw [ht2]
    exact get_foldl_clearNode_not_mem toRem t1 x (fun hmem => by
      have := htoRem_ge x hmem
      omega)
  have hpb2 : parentsBelowOk t2 = true := by
    refine parentsBelowOk_of_get t1 t2 (by rw [ht2, foldl_clearNode_length]) ?_ hpb1
    intro j nd' hget'
    rcases get_foldl_clearNode_cases toRem t1 j with hc | hc
    · rw [ht2] at hget'
      exact absurd (hc.symm.trans hget') (by simp)
    · rw [ht2] at hget'
      exact ⟨nd', hc.symm.trans hget', rfl⟩
  obtain ⟨P1, P2, P3⟩ := subtractChain_spec nd0.size nd0.file_count t2.nodes.length t2
    nd0.parent hpb2
    (fun nid hnid => by
      have := parentsBelow_spec t hpb id nd0 nid hg hnid
      omega)
  -- descendant chains transfer between t and the unlinked tree
  have hdesc_t_t1 : ∀ d, Relation.ReflTransGen (ChildStep t) id d →
      Relation.ReflTransGen (ChildStep t1) id d := by
    intro d hd
    refine reflTransGen_transfer_ge id (childStep_lt t hca) ?_ id d (le_refl id) hd
    intro x y hx hstep
    refine (childStep_congr_get t t1 x ?_ y).mp hstep
    refine (hget1_ne x ?_).symm
    intro pid hpid he
    have := parentsBelow_spec t hpb id nd0 pid hg hpid
    omega
  have hdesc_t1_t : ∀ d, Relation.ReflTransGen (ChildStep t1) id d →
      Relation.ReflTransGen (ChildStep t) id d := by
    intro d hd
    refine reflTransGen_transfer_ge id (childStep_lt t1 hca1) ?_ id d (le_refl id) hd
    intro x y hx hstep
    refine (childStep_congr_get t1 t x ?_ y).mp hstep
    refine hget1_ne x ?_
    intro pid hpid he
    have := parentsBelow_spec t hpb id nd0 pid hg hpid
    omega
  -- upward steps below the removed node agree between t and t2
  have hstepUp_t2_t : ∀ x, x < id → ∀ y, (StepUp t2 x y ↔ StepUp t x y) := by
    intro x hx y
    have h2 : t2.get x = t1.get x := hget2_low x hx
    rw [stepUp_congr_get t2 t1 x h2 y]
    rw [ht1]
    cases hpar : nd0.parent with
    | none => exact Iff.rfl
    | some pid =>
      simp only [unlinkFromParent]
      by_cases hxp : x = pid
      · subst hxp
        cases hpx : t.get x with
        | none => rw [modifyNode_dead t x _ hpx]
        | some pnode =>
          rw [modifyNode_eq_setNode t x _ pnode hpx]
          exact stepUp_setNode_iff t x pnode
            { pnode with children := pnode.children.filter (fun c => c ≠ id) } hpx rfl x y
      · exact stepUp_congr_get _ t x (get_modifyNode_ne t pid x _ hxp) y
  have hup_t_t2 : ∀ p j, p < id → Relation.ReflTransGen (StepUp t) p j →
      Relation.ReflTransGen (StepUp t2) p j := by
    intro p j hp hchain
    refine reflTransGen_transfer_le p (stepUp_lt' t hpb) ?_ p j (le_refl p) hchain
    intro x y hxle hstep
    exact (hstepUp_t2_t x (by omega) y).mpr hstep
  have hup_t2_t : ∀ p j, p < id → Relation.ReflTransGen (StepUp t2) p j →
      Relation.ReflTransGen (StepUp t) p j := by
    intro p j hp hchain
    refine reflTransGen_transfer_le p (stepUp_lt' t2 hpb2) ?_ p j (le_refl p) hchain
    intro x y hxle hstep
    exact (hstepUp_t2_t x (by omega) y).mp hstep
  refine ⟨by rw [hpair], ?_, ?_, ?_, ?_⟩
  · -- descendants tombstoned
    intro d hd
    have hd1 := hdesc_t_t1 d hd
    have hdmem : d ∈ toRem := by
      rcases collectDesc_adequate t1 hca1 t1.nodes.length id (by omega) d hd1 with rfl | hmem
      · rw [htr]; exact List.mem_cons_self _ _
      · rw [htr]; exact List.mem_cons_of_mem _ hmem
    have h2 : t2.get d = none := by
      rw [ht2]; exact get_foldl_clearNode_mem toRem t1 d hdmem
    rw [hpair]
    exact P3 d h2
  · -- the parent no longer lists id
    intro pid pnd' hpar hres
    rw [hpair] at hres
    have hpidlt : pid < id := parentsBelow_spec t hpb id nd0 pid hg hpar
    cases hppid : t.get pid with
    | none =>
      have h1 : t1.get pid = none := by
        rw [ht1, hpar]
        simp only [unlinkFromParent]
        rw [modifyNode_dead t pid _ hppid]
        exact hppid
      have h2 : t2.get pid = none := (hget2_low pid hpidlt).trans h1
      exact absurd ((P3 pid h2).symm.trans hres) (by simp)
    | some pnode =>
      have h1 : t1.get pid =
          some { pnode with children := pnode.children.filter (fun c => c ≠ id) } := by
        rw [ht1, hpar]
        simp only [unlinkFromParent]
        rw [modifyNode_eq_setNode t pid _ pnode hppid]
        exact get_setNode_self t pid _ (get_lt_length t pid pnode hppid)
      have h2 : t2.get pid =
          some { pnode with children := pnode.children.filter (fun c => c ≠ id) } :=
        (hget2_low pid hpidlt).trans h1
      have hsub := P1 pid _ h2 ⟨pid, hpar, Relation.ReflTransGen.refl⟩
      rw [hsub] at hres
      intro hmem
      rw [← Option.some_inj.mp hres] at hmem
      simp only [List.mem_filter, decide_eq_true_eq] at hmem
      exact hmem.2 rfl
  · -- ancestors decremented exactly once
    intro a and0 htg hga
    obtain ⟨b, hstep, hrtg⟩ := Relation.TransGen.head'_iff.mp htg
    obtain ⟨m0, hm, hmp⟩ := hstep
    obtain rfl := Option.some_inj.mp (hg.symm.trans hm)
    have hblt : b < id := parentsBelow_spec t hpb id nd0 b hm hmp
    have halt : a < id := by
      have := le_of_reflTransGen_dec (stepUp_lt' t hpb) hrtg
      omega
    have hchain2 : Relation.ReflTransGen (StepUp t2) b a := hup_t_t2 b a hblt hrtg
    have ht1a : ∃ andA, t1.get a = some andA ∧ andA.size = and0.size ∧
        andA.file_count = and0.file_count := by
      rw [ht1, hmp]
      simp only [unlinkFromParent]
      by_cases hab : a = b
      · subst hab
        rw [modifyNode_eq_setNode t a _ and0 hga,
          get_setNode_self t a _ (get_lt_length t a and0 hga)]
        exact ⟨_, rfl, rfl, rfl⟩
      · rw [get_modifyNode_ne t b a _ hab]
        exact ⟨and0, hga, rfl, rfl⟩
    obtain ⟨andA, h1a, hsz, hfc⟩ := ht1a
    have h2a : t2.get a = some andA := (hget2_low a halt).trans h1a
    have hres := P1 a andA h2a ⟨b, hmp, hchain2⟩
    rw [hpair]
    exact ⟨_, hres, by simp [hsz], by simp [hfc]⟩
  · -- every other slot untouched
    intro j hnd hna
    have hjneid : j ≠ id := fun he => hnd (he ▸ Relation.ReflTransGen.refl)
    have hjnotrem : j ∉ toRem := by
      rw [htr]
      intro hmem
      rcases List.mem_cons.mp hmem with rfl | hmem2
      · exact hjneid rfl
      · exact hnd (hdesc_t1_t j
          (Relation.TransGen.to_reflTransGen
            (collectDesc_sound t1 t1.nodes.length id j hmem2)))
    have h2j : t2.get j = t1.get j := by
      rw [ht2]
      exact get_foldl_clearNode_not_mem toRem t1 j hjnotrem
    have h1j : t1.get j = t.get j := by
      refine hget1_ne j ?_
      intro pid hpid he
      exact hna (he ▸ Relation.TransGen.single ⟨nd0, hg, hpid⟩)
    have hnochain : ¬ (∃ nid, nd0.parent = some nid ∧
        Relation.ReflTransGen (StepUp t2) nid j) := by
      rintro ⟨p, hp, hchain2⟩
      have hplt : p < id := parentsBelow_spec t hpb id nd0 p hg hp
      exact hna (Relation.TransGen.head'_iff.mpr
        ⟨p, ⟨nd0, hg, hp⟩, hup_t2_t p j hplt hchain2⟩)
    rw [hpair]
    exact (P2 j hnochain).trans (h2j.trans h1j)


/-- The C1 witness tree after aggregation, used to exercise removal: the
directory b (slot 2, size 200, one file) is removed. -/
def remWitnessTree : DiskTree := (buildTree [""] aggWitnessOps).aggregate_sizes

/-- Witness for remove_node_spec at a concrete tree: removing the
directory b returns its aggregated size. -/
theorem remove_node_spec_witness :
    (parentsBelowOk remWitnessTree = true) ∧
    (childrenAboveOk remWitnessTree = true) ∧
    (remWitnessTree.get 2 = some aggWitnessDir) ∧
    (remWitnessTree.remove_node 2).2 = aggWitnessDir.size :=
  ⟨by decide, by decide, by decide,
    ((remove_node_spec remWitnessTree 2 (by decide) (by decide)).2.2
      aggWitnessDir (by decide) (by decide)).1⟩

end DiskTree


/-! ## Scan-loop message protocol (C9) -/

lemma scanLoop_no_cancel (same_fs : Bool) (root_path : DPath) (root_dev : Nat)
    (cancelled : Nat → Bool) :
    ∀ (entries : List WalkItem) (k : Nat) (st : ScanState),
      (∀ j, j < entries.length → cancelled (k + j) = false) →
      scanLoop same_fs root_path root_dev cancelled k st entries =
        ([ScanMessage.Finalizing,
          ScanMessage.Progress
            (entries.foldl (processEntry same_fs root_path root_dev) st).progress,
          ScanMessage.Completed],
         ((entries.foldl (processEntry same_fs root_path root_dev) st).tree.aggregate_sizes).sort_by_size) := by
  intro entries
  induction entries with
  | nil => intro k st hnc; rfl
  | cons e rest ih =>
    intro k st hnc
    have h0 : cancelled k = false := by
      have := hnc 0 (by simp)
      simpa using this
    unfold scanLoop
    rw [h0]
    simp only [Bool.false_eq_true, if_false, List.foldl_cons]
    exact ih (k + 1) (processEntry same_fs root_path root_dev st e)
      (fun j hj => by
        have := hnc (j + 1) (by simpa using Nat.succ_lt_succ hj)
        simpa [Nat.add_comm, Nat.add_assoc, Nat.add_left_comm] using this)

lemma scanLoop_cancel (same_fs : Bool) (root_path : DPath) (root_dev : Nat)
    (cancelled : Nat → Bool) :
    ∀ (entries : List WalkItem) (j k : Nat) (st : ScanState),
      j < entries.length → cancelled (k + j) = true →
      (∀ i, i < j → cancelled (k + i) = false) →
      scanLoop same_fs root_path root_dev cancelled k st entries =
        ([ScanMessage.Cancelled],
         ((entries.take j).foldl (processEntry same_fs root_path root_dev) st).tree) := by
  intro entries
  induction entries with
  | nil => intro j k st hj; exact absurd hj (by simp)
  | cons e rest ih =>
    intro j k st hj hcan hbefore
    cases j with
    | zero =>
      unfold scanLoop
      rw [show cancelled k = true from by simpa using hcan]
      simp
    | succ j1 =>
      have h0 : cancelled k = false := by
        have := hbefore 0 (by omega)
        simpa using this
      unfold scanLoop
      rw [h0]
      simp only [Bool.false_eq_true, if_false, List.take_succ_cons, List.foldl_cons]
      refine ih j1 (k + 1) (processEntry same_fs root_path root_dev st e)
        (by simpa using Nat.lt_of_succ_lt_succ hj) ?_ ?_
      · have := hcan
        simpa [Nat.add_comm, Nat.add_assoc, Nat.add_left_comm] using this
      · intro i hi
        have := hbefore (i + 1) (by omega)
        simpa [Nat.add_comm, Nat.add_assoc, Nat.add_left_comm] using this

lemma scanLoop_count (same_fs : Bool) (root_path : DPath) (root_dev : Nat)
    (cancelled : Nat → Bool) :
    ∀ (entries : List WalkItem) (k : Nat) (st : ScanState),
      (scanLoop same_fs root_path root_dev cancelled k st entries).1.count
          ScanMessage.Completed +
        (scanLoop same_fs root_path root_dev cancelled k st entries).1.count
          ScanMessage.Cancelled ≤ 1 := by
  intro entries
  induction entries with
  | nil =>
    intro k st
    simp [scanLoop, List.count_cons]
  | cons e rest ih =>
    intro k st
    unfold scanLoop
    by_cases hc : cancelled k = true
    · rw [hc]
      simp [List.count_cons]
    · rw [Bool.not_eq_true] at hc
      rw [hc]
      simp only [Bool.false_eq_true, if_false]
      exact ih (k + 1) (processEntry same_fs root_path root_dev st e)

/-- C9: the scan loop emits at most one of Completed and Cancelled and
never both; a run with no cancellation observed emits exactly
StartedDirectory, one Finalizing, one final Progress snapshot and
Completed, in that order, returning the aggregated and sorted tree; a
run cancelled at iteration j emits StartedDirectory then Cancelled and
returns the partial tree of the entries processed so far, with no
Finalizing, no aggregation and no sorting. -/
theorem scan_sync_protocol (same_fs : Bool) (root_path : DPath) (root_dev : Nat)
    (root_mtime : Option Nat) (entries : List WalkItem) (cancelled : Nat → Bool) :
    ((scan_sync same_fs root_path root_dev root_mtime entries cancelled).1.count
        ScanMessage.Completed +
      (scan_sync same_fs root_path root_dev root_mtime entries cancelled).1.count
        ScanMessage.Cancelled ≤ 1) ∧
    ((∀ j, j < entries.length → cancelled j = false) →
      scan_sync same_fs root_path root_dev root_mtime entries cancelled =
        ([ScanMessage.StartedDirectory root_path, ScanMessage.Finalizing,
          ScanMessage.Progress
            (entries.foldl (processEntry same_fs root_path root_dev)
              (initialScanState root_path root_mtime)).progress,
          ScanMessage.Completed],
         ((entries.foldl (processEntry same_fs root_path root_dev)
            (initialScanState root_path root_mtime)).tree.aggregate_sizes).sort_by_size)) ∧
    (∀ j, j < entries.length → cancelled j = true → (∀ i, i < j → cancelled i = false) →
      scan_sync same_fs root_path root_dev root_mtime entries cancelled =
        ([ScanMessage.StartedDirectory root_path, ScanMessage.Cancelled],
         ((entries.take j).foldl (processEntry same_fs root_path root_dev)
            (initialScanState root_path root_mtime)).tree)) := by
  refine ⟨?_, ?_, ?_⟩
  · unfold scan_sync
    simp only [List.count_cons]
    have := scanLoop_count same_fs root_path root_dev cancelled entries 0
      (initialScanState root_path root_mtime)
    simp only [beq_iff_eq]
    have h1 : ScanMessage.StartedDirectory root_path ≠ ScanMessage.Completed := by simp
    have h2 : ScanMessage.StartedDirectory root_path ≠ ScanMessage.Cancelled := by simp
    rw [if_neg h1, if_neg h2]
    omega
  · intro hnc
    unfold scan_sync
    rw [scanLoop_no_cancel same_fs root_path root_dev cancelled entries 0
      (initialScanState root_path root_mtime) (fun j hj => by simpa using hnc j hj)]
  · intro j hj hcan hbefore
    unfold scan_sync
    rw [scanLoop_cancel same_fs root_path root_dev cancelled entries j 0
      (initialScanState root_path root_mtime) hj (by simpa using hcan)
      (fun i hi => by simpa using hbefore i hi)]

/-- Witness for scan_sync_protocol: a one-entry walk with no
cancellation completes with the full protocol. -/
theorem scan_sync_protocol_witness :
    (∀ j, j < ([WalkItem.err] : List WalkItem).length → (fun _ => false : Nat → Bool) j = false) ∧
    scan_sync true [""] 7 none [WalkItem.err] (fun _ => false) =
      ([ScanMessage.StartedDirectory [""], ScanMessage.Finalizing,
        ScanMessage.Progress
          (([WalkItem.err] : List WalkItem).foldl (processEntry true [""] 7)
            (initialScanState [""] none)).progress,
        ScanMessage.Completed],
       ((([WalkItem.err] : List WalkItem).foldl (processEntry true [""] 7)
          (initialScanState [""] none)).tree.aggregate_sizes).sort_by_size) :=
  ⟨by decide,
    (scan_sync_protocol true [""] 7 none [WalkItem.err] (fun _ => false)).2.1 (by decide)⟩


/-! ## CRC32: single-byte corruption always changes the checksum -/

/-- Bytes of a wire string are all below 256. -/
def ByteOk (l : List Nat) : Prop := ∀ b ∈ l, b < 256

lemma crcRound_lt (x : Nat) (hx : x < 2 ^ 32) : crcRound x < 2 ^ 32 := by
  unfold crcRound
  have h1 : x / 2 < 2 ^ 32 := by omega
  by_cases h : x % 2 = 1
  · rw [if_pos h]
    exact Nat.xor_lt_two_pow h1 (by norm_num)
  · rw [if_neg h]
    exact Nat.xor_lt_two_pow h1 (by norm_num)

lemma crcRound_inj (x y : Nat) (hx : x < 2 ^ 32) (hy : y < 2 ^ 32)
    (h : crcRound x = crcRound y) : x = y := by
  unfold crcRound at h
  have hx2 : x / 2 < 2 ^ 31 := by omega
  have hy2 : y / 2 < 2 ^ 31 := by omega
  by_cases hxm : x % 2 = 1 <;> by_cases hym : y % 2 = 1
  · rw [if_pos hxm, if_pos hym] at h
    have := (Function.Injective.eq_iff Nat.xor_left_injective).mp h
    omega
  · rw [if_pos hxm, if_neg hym] at h
    exfalso
    have hbit := congrArg (fun n => n.testBit 31) h
    simp only [Nat.testBit_xor, Nat.xor_zero] at hbit
    rw [Nat.testBit_lt_two_pow hx2, Nat.testBit_lt_two_pow hy2] at hbit
    have hP : (0xEDB88320 : Nat).testBit 31 = true := by decide
    rw [hP] at hbit
    simp at hbit
  · rw [if_neg hxm, if_pos hym] at h
    exfalso
    have hbit := congrArg (fun n => n.testBit 31) h
    simp only [Nat.testBit_xor, Nat.xor_zero] at hbit
    rw [Nat.testBit_lt_two_pow hx2, Nat.testBit_lt_two_pow hy2] at hbit
    have hP : (0xEDB88320 : Nat).testBit 31 = true := by decide
    rw [hP] at hbit
    simp at hbit
  · rw [if_neg hxm, if_neg hym] at h
    have := (Function.Injective.eq_iff Nat.xor_left_injective).mp h
    omega

lemma crcRound_pair (x y : Nat) (hx : x < 2 ^ 32) (hy : y < 2 ^ 32) (hne : x ≠ y) :
    crcRound x ≠ crcRound y ∧ crcRound x < 2 ^ 32 ∧ crcRound y < 2 ^ 32 :=
  ⟨fun h => hne (crcRound_inj x y hx hy h), crcRound_lt x hx, crcRound_lt y hy⟩

lemma crcByte_lt (c b : Nat) (hc : c < 2 ^ 32) (hb : b < 256) : crcByte c b < 2 ^ 32 := by
  unfold crcByte
  have h0 : c ^^^ b < 2 ^ 32 := Nat.xor_lt_two_pow hc (by omega)
  exact crcRound_lt _ (crcRound_lt _ (crcRound_lt _ (crcRound_lt _ (crcRound_lt _
    (crcRound_lt _ (crcRound_lt _ (crcRound_lt _ h0)))))))

lemma crcByte_ne (c1 c2 b : Nat) (h1 : c1 < 2 ^ 32) (h2 : c2 < 2 ^ 32) (hb : b < 256)
    (hne : c1 ≠ c2) : crcByte c1 b ≠ crcByte c2 b := by
  unfold crcByte
  have e0 : c1 ^^^ b ≠ c2 ^^^ b :=
    fun h => hne ((Function.Injective.eq_iff (Nat.xor_left_injective (n := b))).mp h)
  have l1 : c1 ^^^ b < 2 ^ 32 := Nat.xor_lt_two_pow h1 (by omega)
  have l2 : c2 ^^^ b < 2 ^ 32 := Nat.xor_lt_two_pow h2 (by omega)
  obtain ⟨e1, l1, l2⟩ := crcRound_pair _ _ l1 l2 e0
  obtain ⟨e2, l1, l2⟩ := crcRound_pair _ _ l1 l2 e1
  obtain ⟨e3, l1, l2⟩ := crcRound_pair _ _ l1 l2 e2
  obtain ⟨e4, l1, l2⟩ := crcRound_pair _ _ l1 l2 e3
  obtain ⟨e5, l1, l2⟩ := crcRound_pair _ _ l1 l2 e4
  obtain ⟨e6, l1, l2⟩ := crcRound_pair _ _ l1 l2 e5
  obtain ⟨e7, l1, l2⟩ := crcRound_pair _ _ l1 l2 e6
  obtain ⟨e8, l1, l2⟩ := crcRound_pair _ _ l1 l2 e7
  exact e8

lemma foldl_crcByte_lt (l : List Nat) :
    ∀ c, ByteOk l → c < 2 ^ 32 → l.foldl crcByte c < 2 ^ 32 := by
  induction l with
  | nil => intro c _ hc; exact hc
  | cons b bs ih =>
    intro c hB hc
    rw [List.foldl_cons]
    exact ih _ (fun x hx => hB x (List.mem_cons_of_mem b hx))
      (crcByte_lt c b hc (hB b (List.mem_cons_self b bs)))

lemma foldl_crcByte_ne (l : List Nat) :
    ∀ c1 c2, ByteOk l → c1 < 2 ^ 32 → c2 < 2 ^ 32 → c1 ≠ c2 →
      l.foldl crcByte c1 ≠ l.foldl crcByte c2 := by
  induction l with
  | nil => intro c1 c2 _ _ _ hne; exact hne
  | cons b bs ih =>
    intro c1 c2 hB h1 h2 hne
    rw [List.foldl_cons, List.foldl_cons]
    have hb : b < 256 := hB b (List.mem_cons_self b bs)
    exact ih _ _ (fun x hx => hB x (List.mem_cons_of_mem b hx))
      (crcByte_lt c1 b h1 hb) (crcByte_lt c2 b h2 hb) (crcByte_ne c1 c2 b h1 h2 hb hne)

lemma crc32_lt (l : List Nat) (hB : ByteOk l) : crc32 l < 2 ^ 32 := by
  unfold crc32
  exact Nat.xor_lt_two_pow (foldl_crcByte_lt l _ hB (by norm_num)) (by norm_num)

/-- Changing exactly one byte of a byte string changes its CRC32. -/
lemma crc32_set_ne (l : List Nat) (k : Nat) (b' : Nat) (hB : ByteOk l)
    (hk : k < l.length) (hb' : b' < 256) (hne : b' ≠ l.getD k 0) :
    crc32 (l.set k b') ≠ crc32 l := by
  have hsplit : l = l.take k ++ l.getD k 0 :: l.drop (k + 1) := by
    conv_lhs => rw [← List.take_append_drop k l]
    rw [List.drop_eq_getElem_cons hk, List.getD_eq_getElem?_getD,
      List.getElem?_eq_getElem hk]
    rfl
  have hset : l.set k b' = l.take k ++ b' :: l.drop (k + 1) := by
    conv_lhs => rw [hsplit]
    rw [List.set_append]
    rw [List.length_take]
    have hlt : k ≤ l.length := le_of_lt hk
    rw [Nat.min_eq_left hlt]
    simp
  unfold crc32
  intro h
  have h2 := (Function.Injective.eq_iff
    (Nat.xor_left_injective (n := 0xFFFFFFFF))).mp h
  rw [hset] at h2
  conv_rhs at h2 => rw [hsplit]
  rw [List.foldl_append, List.foldl_append, List.foldl_cons, List.foldl_cons] at h2
  have hBtake : ByteOk (l.take k) := fun x hx => hB x (List.mem_of_mem_take hx)
  have hBdrop : ByteOk (l.drop (k + 1)) := fun x hx => hB x (List.mem_of_mem_drop hx)
  have hk0 : l.getD k 0 < 256 := by
    rw [List.getD_eq_getElem?_getD, List.getElem?_eq_getElem hk]
    exact hB _ (List.getElem_mem hk)
  have hc : (l.take k).foldl crcByte 0xFFFFFFFF < 2 ^ 32 :=
    foldl_crcByte_lt _ _ hBtake (by norm_num)
  have hstep : crcByte ((l.take k).foldl crcByte 0xFFFFFFFF) b' ≠
      crcByte ((l.take k).foldl crcByte 0xFFFFFFFF) (l.getD k 0) := by
    unfold crcByte
    intro he
    have e1 := crcRound_inj _ _
      (crcRound_lt _ (crcRound_lt _ (crcRound_lt _ (crcRound_lt _ (crcRound_lt _
        (crcRound_lt _ (crcRound_lt _ (Nat.xor_lt_two_pow hc (by omega)))))))))
      (crcRound_lt _ (crcRound_lt _ (crcRound_lt _ (crcRound_lt _ (crcRound_lt _
        (crcRound_lt _ (crcRound_lt _ (Nat.xor_lt_two_pow hc (by omega))))))))) he
    have e2 := crcRound_inj _ _
      (crcRound_lt _ (crcRound_lt _ (crcRound_lt _ (crcRound_lt _ (crcRound_lt _
        (crcRound_lt _ (Nat.xor_lt_two_pow hc (by omega))))))))
      (crcRound_lt _ (crcRound_lt _ (crcRound_lt _ (crcRound_lt _ (crcRound_lt _
        (crcRound_lt _ (Nat.xor_lt_two_pow hc (by omega)))))))) e1
    have e3 := crcRound_inj _ _
      (crcRound_lt _ (crcRound_lt _ (crcRound_lt _ (crcRound_lt _ (crcRound_lt _
        (Nat.xor_lt_two_pow hc (by omega)))))))
      (crcRound_lt _ (crcRound_lt _ (crcRound_lt _ (crcRound_lt _ (crcRound_lt _
        (Nat.xor_lt_two_pow hc (by omega))))))) e2
    have e4 := crcRound_inj _ _
      (crcRound_lt _ (crcRound_lt _ (crcRound_lt _ (crcRound_lt _
        (Nat.xor_lt_two_pow hc (by omega))))))
      (crcRound_lt _ (crcRound_lt _ (crcRound_lt _ (crcRound_lt _
        (Nat.xor_lt_two_pow hc (by omega)))))) e3
    have e5 := crcRound_inj _ _
      (crcRound_lt _ (crcRound_lt _ (crcRound_lt _ (Nat.xor_lt_two_pow hc (by omega)))))
      (crcRound_lt _ (crcRound_lt _ (crcRound_lt _ (Nat.xor_lt_two_pow hc (by omega))))) e4
    have e6 := crcRound_inj _ _
      (crcRound_lt _ (crcRound_lt _ (Nat.xor_lt_two_pow hc (by omega))))
      (crcRound_lt _ (crcRound_lt _ (Nat.xor_lt_two_pow hc (by omega)))) e5
    have e7 := crcRound_inj _ _
      (crcRound_lt _ (Nat.xor_lt_two_pow hc (by omega)))
      (crcRound_lt _ (Nat.xor_lt_two_pow hc (by omega))) e6
    have e8 := crcRound_inj _ _
      (Nat.xor_lt_two_pow hc (by omega)) (Nat.xor_lt_two_pow hc (by omega)) e7
    exact hne ((Function.Injective.eq_iff Nat.xor_right_injective).mp e8)
  exact foldl_crcByte_ne _ _ _ hBdrop
    (crcByte_lt _ _ hc hb') (crcByte_lt _ _ hc hk0) hstep h2


/-! ## Cache framing lemmas -/

lemma byteOk_append {l1 l2 : List Nat} (h1 : ByteOk l1) (h2 : ByteOk l2) :
    ByteOk (l1 ++ l2) := by
  intro b hb
  rcases List.mem_append.mp hb with h | h
  · exact h1 b h
  · exact h2 b h

lemma byteOk_le32 (n : Nat) : ByteOk (le32 n) := by
  intro b hb
  unfold le32 at hb
  simp only [List.mem_cons, List.not_mem_nil, or_false] at hb
  rcases hb with rfl | rfl | rfl | rfl <;> omega

lemma byteOk_varintAux (fuel : Nat) : ∀ n, ByteOk (varintAux fuel n) := by
  induction fuel with
  | zero => intro n b hb; simp [varintAux] at hb
  | succ m ih =>
    intro n b hb
    unfold varintAux at hb
    by_cases h : n < 128
    · rw [if_pos h] at hb
      simp only [List.mem_singleton] at hb
      omega
    · rw [if_neg h] at hb
      rcases List.mem_cons.mp hb with rfl | hb2
      · have := Nat.mod_lt n (y := 128) (by omega)
        omega
      · exact ih (n / 128) b hb2

lemma byteOk_varint (n : Nat) : ByteOk (varint n) := byteOk_varintAux (n + 1) n

lemma byteOk_encBool (b : Bool) : ByteOk (encBool b) := by
  intro x hx
  cases b <;> simp [encBool] at hx <;> omega

lemma byteOk_encOpt {α : Type} (enc : α → List Nat) (h : ∀ a, ByteOk (enc a)) :
    ∀ o : Option α, ByteOk (encOpt enc o) := by
  intro o x hx
  cases o with
  | none => simp [encOpt] at hx; omega
  | some a =>
    rcases List.mem_cons.mp hx with rfl | hx2
    · omega
    · exact h a x hx2

lemma byteOk_encString (s : String) : ByteOk (encString s) := by
  refine byteOk_append (byteOk_varint _) ?_
  intro b hb
  rw [List.mem_flatMap] at hb
  obtain ⟨c, -, hc⟩ := hb
  exact byteOk_varint _ b hc

lemma byteOk_encListOf {α : Type} (enc : α → List Nat) (h : ∀ a, ByteOk (enc a))
    (l : List α) : ByteOk (encListOf enc l) := by
  refine byteOk_append (byteOk_varint _) ?_
  intro b hb
  rw [List.mem_flatMap] at hb
  obtain ⟨a, -, ha⟩ := hb
  exact h a b ha

lemma byteOk_encPath (p : DPath) : ByteOk (encPath p) :=
  byteOk_encListOf encString byteOk_encString p

lemma byteOk_encKind (k : NodeKind) : ByteOk (encKind k) := by
  intro b hb
  cases k <;> simp [encKind] at hb <;> omega

lemma byteOk_encConfig (c : CachedScanConfig) : ByteOk (encConfig c) :=
  byteOk_append (byteOk_append (byteOk_encBool _) (byteOk_encBool _))
    (byteOk_encOpt varint (fun n => byteOk_varint n) _)

lemma byteOk_encMeta (m : CacheMetadata) : ByteOk (encMeta m) := by
  unfold encMeta
  exact byteOk_append (byteOk_append (byteOk_append (byteOk_append (byteOk_append
    (byteOk_append (byteOk_varint _) (byteOk_encPath _)) (byteOk_varint _))
    (byteOk_varint _)) (byteOk_varint _)) (byteOk_varint _)) (byteOk_encConfig _)

lemma byteOk_encNode (n : TreeNode) : ByteOk (encNode n) := by
  unfold encNode
  exact byteOk_append (byteOk_append (byteOk_append (byteOk_append (byteOk_append
    (byteOk_append (byteOk_append (byteOk_append (byteOk_append (byteOk_varint _)
    (byteOk_encString _)) (byteOk_encKind _)) (byteOk_varint _)) (byteOk_varint _))
    (byteOk_encOpt varint (fun x => byteOk_varint x) _))
    (byteOk_encListOf varint (fun x => byteOk_varint x) _)) (byteOk_varint _))
    (byteOk_encBool _)) (byteOk_encOpt varint (fun x => byteOk_varint x) _)

lemma byteOk_encTree (t : DiskTree) : ByteOk (encTree t) :=
  byteOk_append
    (byteOk_encListOf (encOpt encNode) (byteOk_encOpt encNode byteOk_encNode) _)
    (byteOk_encPath _)

lemma byteOk_magic : ByteOk CACHE_MAGIC := by
  intro b hb
  simp [CACHE_MAGIC] at hb
  omega

lemma byteOk_save_data (t : DiskTree) (meta : CacheMetadata) :
    ByteOk (CACHE_MAGIC ++ le32 CACHE_VERSION ++ le32 (encMeta meta).length ++
      encMeta meta ++ le32 (encTree t).length ++ encTree t) :=
  byteOk_append (byteOk_append (byteOk_append (byteOk_append (byteOk_append
    byteOk_magic (byteOk_le32 _)) (byteOk_le32 _)) (byteOk_encMeta _))
    (byteOk_le32 _)) (byteOk_encTree _)

lemma byteOk_save (t : DiskTree) (meta : CacheMetadata) : ByteOk (save_cache t meta) :=
  byteOk_append (byteOk_save_data t meta) (byteOk_le32 _)

lemma save_cache_length (t : DiskTree) (meta : CacheMetadata) :
    (save_cache t meta).length = 20 + (encMeta meta).length + (encTree t).length := by
  unfold save_cache
  simp [CACHE_MAGIC, le32]
  omega

lemma readU32_eq (l : List Nat) (off : Nat) :
    readU32 l off = (l[off]?).getD 0 + 256 * (l[off + 1]?).getD 0 +
      65536 * (l[off + 2]?).getD 0 + 16777216 * (l[off + 3]?).getD 0 := by
  unfold readU32
  simp [List.getD_eq_getElem?_getD, List.getElem?_drop]

lemma readU32_append_le32 (a : List Nat) (c : Nat) (rest : List Nat) (hc : c < 2 ^ 32) :
    readU32 (a ++ (le32 c ++ rest)) a.length = c := by
  rw [readU32_eq]
  have h0 : (a ++ (le32 c ++ rest))[a.length]? = some (c % 256) := by
    rw [List.getElem?_append_right (le_refl _), Nat.sub_self]
    simp [le32]
  have h1 : (a ++ (le32 c ++ rest))[a.length + 1]? = some (c / 256 % 256) := by
    rw [List.getElem?_append_right (by omega), Nat.add_sub_cancel_left]
    simp [le32]
  have h2 : (a ++ (le32 c ++ rest))[a.length + 2]? = some (c / 65536 % 256) := by
    rw [List.getElem?_append_right (by omega), Nat.add_sub_cancel_left]
    simp [le32]
  have h3 : (a ++ (le32 c ++ rest))[a.length + 3]? = some (c / 16777216 % 256) := by
    rw [List.getElem?_append_right (by omega), Nat.add_sub_cancel_left]
    simp [le32]
  rw [h0, h1, h2, h3]
  simp only [Option.getD_some]
  omega


/-! ## Cache rejection of corrupted input (C3) -/

/-- C3: load_cache rejects every corrupted or incompatible input with a
Cache error: any input shorter than 20 bytes; any single-bit flip of a
save_cache output outside the trailing 4-byte CRC (the CRC check fires);
and any input whose stored version field differs from CACHE_VERSION. -/
theorem load_cache_rejects :
    (∀ data : List Nat, data.length < 20 →
      load_cache data = .error (.Cache "Cache file too small")) ∧
    (∀ (t : DiskTree) (meta : CacheMetadata) (k i : Nat),
      k < (save_cache t meta).length - 4 → i < 8 →
      load_cache ((save_cache t meta).set k ((save_cache t meta).getD k 0 ^^^ 2 ^ i)) =
        .error (.Cache "Cache checksum mismatch")) ∧
    (∀ data : List Nat, readU32 data 4 ≠ CACHE_VERSION →
      ∃ msg, load_cache data = .error (.Cache msg)) := by
  refine ⟨?_, ?_, ?_⟩
  · intro data h
    simp only [load_cache]
    rw [if_pos h]
  · intro t meta k i hk hi
    set D := CACHE_MAGIC ++ le32 CACHE_VERSION ++ le32 (encMeta meta).length ++
      encMeta meta ++ le32 (encTree t).length ++ encTree t with hD
    have hfile : save_cache t meta = D ++ le32 (crc32 D) := rfl
    have hDbytes : ByteOk D := byteOk_save_data t meta
    have hcrc_lt : crc32 D < 2 ^ 32 := crc32_lt D hDbytes
    have hlenfile : (save_cache t meta).length = D.length + 4 := by
      rw [hfile]
      simp [le32]
    have hlen20 : 20 ≤ (save_cache t meta).length := by
      rw [save_cache_length]
      omega
    have hk' : k < D.length := by omega
    set b' := (save_cache t meta).getD k 0 ^^^ 2 ^ i with hb'
    set file' := (save_cache t meta).set k b' with hfile'
    have hflen : file'.length = D.length + 4 := by
      rw [hfile', List.length_set]
      exact hlenfile
    have hnot20 : ¬ file'.length < 20 := by
      rw [hfile', List.length_set]
      omega
    have hoff : file'.length - 4 = D.length := by omega
    have hb0D : (save_cache t meta).getD k 0 = D.getD k 0 := by
      rw [hfile, List.getD_eq_getElem?_getD, List.getElem?_append_left hk',
        ← List.getD_eq_getElem?_getD]
    have hb0lt : D.getD k 0 < 256 := by
      rw [List.getD_eq_getElem?_getD, List.getElem?_eq_getElem hk']
      exact hDbytes _ (List.getElem_mem hk')
    have hpow : (0:Nat) < 2 ^ i := Nat.two_pow_pos i
    have hpowlt : 2 ^ i < 256 := by
      have : 2 ^ i ≤ 2 ^ 7 := Nat.pow_le_pow_right (by omega) (by omega)
      omega
    have hb'lt : b' < 256 := by
      rw [hb', hb0D]
      exact Nat.xor_lt_two_pow (n := 8) (by omega) (by omega)
    have hb'ne : b' ≠ D.getD k 0 := by
      rw [hb', hb0D]
      intro he
      have h2 := congrArg (fun x => D.getD k 0 ^^^ x) he
      simp only [Nat.xor_cancel_left, Nat.xor_self] at h2
      omega
    have hstored : readU32 file' D.length = crc32 D := by
      have h1 : readU32 file' D.length = readU32 (save_cache t meta) D.length := by
        rw [readU32_eq, readU32_eq, hfile']
        rw [List.getElem?_set_ne (by omega), List.getElem?_set_ne (by omega),
          List.getElem?_set_ne (by omega), List.getElem?_set_ne (by omega)]
      have h2 : readU32 (save_cache t meta) D.length = crc32 D := by
        have h3 := readU32_append_le32 D (crc32 D) [] hcrc_lt
        rw [List.append_nil] at h3
        rw [hfile]
        exact h3
      exact h1.trans h2
    have hcomputed : file'.take D.length = D.set k b' := by
      rw [hfile']
      have h1 : ((save_cache t meta).set k b').take D.length =
          ((save_cache t meta).take D.length).set k b' := List.set_take
      rw [h1, hfile]
      congr 1
      simp
    simp only [load_cache]
    rw [if_neg hnot20, hoff, hstored, hcomputed]
    rw [if_pos (Ne.symm (crc32_set_ne D k b' hDbytes hk' hb'lt hb'ne))]
  · intro data hv
    by_cases h1 : data.length < 20
    · exact ⟨"Cache file too small", by simp only [load_cache]; rw [if_pos h1]⟩
    · by_cases h2 : readU32 data (data.length - 4) ≠ crc32 (data.take (data.length - 4))
      · refine ⟨"Cache checksum mismatch", ?_⟩
        simp only [load_cache]
        rw [if_neg h1, if_pos h2]
      · by_cases h3 : data.take 4 ≠ CACHE_MAGIC
        · refine ⟨"Invalid cache magic", ?_⟩
          simp only [load_cache]
          rw [if_neg h1, if_neg h2, if_pos h3]
        · refine ⟨"Cache version mismatch", ?_⟩
          simp only [load_cache]
          rw [if_neg h1, if_neg h2, if_neg h3, if_pos hv]

/-- A small metadata record for the cache witnesses. -/
def metaW : CacheMetadata :=
  { version := 1, root_path := [""], scan_time := 5, root_mtime := 7,
    total_size := 0, node_count := 1,
    config := { follow_symlinks := false, same_filesystem := true, max_depth := none } }

/-- Witness for load_cache_rejects: flipping bit 2 of byte 10 of a saved
cache for a one-node tree is rejected by the CRC check. -/
theorem load_cache_rejects_witness :
    (10 < (save_cache (DiskTree.new [""]) metaW).length - 4 ∧ 2 < 8) ∧
    load_cache ((save_cache (DiskTree.new [""]) metaW).set 10
        ((save_cache (DiskTree.new [""]) metaW).getD 10 0 ^^^ 2 ^ 2)) =
      .error (.Cache "Cache checksum mismatch") :=
  ⟨⟨by decide, by decide⟩,
    load_cache_rejects.2.1 (DiskTree.new [""]) metaW 10 2 (by decide) (by decide)⟩

/-! ## Cache round-trip (C4) -/

namespace DiskTree

/-- A node as decNode reconstructs it from the wire: path cleared,
everything else kept. -/
def stripPath (n : TreeNode) : TreeNode := { n with path := [] }

/-- The tree decTree reconstructs before rebuild_paths runs: every
node's path cleared. -/
def stripPaths (t : DiskTree) : DiskTree :=
  { nodes := t.nodes.map (Option.map stripPath), root_path := t.root_path }

end DiskTree

lemma devarint_varintAux (fuel : Nat) : ∀ n rest, n < fuel →
    devarint (varintAux fuel n ++ rest) = some (n, rest) := by
  induction fuel with
  | zero => intro n rest h; exact absurd h (Nat.not_lt_zero n)
  | succ m ih =>
    intro n rest h
    unfold varintAux
    by_cases hn : n < 128
    · rw [if_pos hn]
      simp [devarint, hn]
    · rw [if_neg hn]
      have hb : ¬ (128 + n % 128 < 128) := by omega
      simp only [List.cons_append, devarint, if_neg hb, List.append_eq]
      have hlt : n / 128 < m := by
        have h1 : n / 128 < n := Nat.div_lt_self (by omega) (by omega)
        omega
      rw [ih (n / 128) rest hlt]
      simp only [Option.some.injEq, Prod.mk.injEq, and_true]
      omega

lemma devarint_varint (n : Nat) (rest : List Nat) :
    devarint (varint n ++ rest) = some (n, rest) :=
  devarint_varintAux (n + 1) n rest (Nat.lt_succ_self n)

lemma decBool_encBool (b : Bool) (rest : List Nat) :
    decBool (encBool b ++ rest) = some (b, rest) := by
  cases b <;> rfl

lemma decOpt_encOpt {α : Type} (enc : α → List Nat) (dec : List Nat → Option (α × List Nat))
    (f : α → α) (h : ∀ a rest, dec (enc a ++ rest) = some (f a, rest)) :
    ∀ (o : Option α) (rest : List Nat),
      decOpt dec (encOpt enc o ++ rest) = some (o.map f, rest) := by
  intro o rest
  cases o with
  | none => rfl
  | some x =>
    show decOpt dec (1 :: (enc x ++ rest)) = some (some (f x), rest)
    simp only [decOpt, h x rest]

lemma decCharsN_flatMap : ∀ (cs : List Char) (rest : List Nat),
    decCharsN cs.length (cs.flatMap (fun c => varint c.toNat) ++ rest) = some (cs, rest) := by
  intro cs
  induction cs with
  | nil => intro rest; rfl
  | cons c cs ih =>
    intro rest
    simp only [List.flatMap_cons, List.length_cons, List.append_assoc]
    simp only [decCharsN, devarint_varint c.toNat (cs.flatMap (fun c => varint c.toNat) ++ rest),
      ih rest, Char.ofNat_toNat]

lemma decString_encString (s : String) (rest : List Nat) :
    decString (encString s ++ rest) = some (s, rest) := by
  unfold encString decString
  rw [List.append_assoc]
  simp only [devarint_varint s.toList.length (s.toList.flatMap (fun c => varint c.toNat) ++ rest),
    decCharsN_flatMap s.toList rest]
  cases s
  rfl

lemma decListN_flatMap {α : Type} (enc : α → List Nat) (dec : List Nat → Option (α × List Nat))
    (f : α → α) (h : ∀ a rest, dec (enc a ++ rest) = some (f a, rest)) :
    ∀ (xs : List α) (rest : List Nat),
      decListN dec xs.length (xs.flatMap enc ++ rest) = some (xs.map f, rest) := by
  intro xs
  induction xs with
  | nil => intro rest; rfl
  | cons x xs ih =>
    intro rest
    simp only [List.flatMap_cons, List.length_cons, List.append_assoc, List.map_cons]
    simp only [decListN, h x (xs.flatMap enc ++ rest), ih rest]

lemma decListOf_encListOf {α : Type} (enc : α → List Nat) (dec : List Nat → Option (α × List Nat))
    (f : α → α) (h : ∀ a rest, dec (enc a ++ rest) = some (f a, rest))
    (xs : List α) (rest : List Nat) :
    decListOf dec (encListOf enc xs ++ rest) = some (xs.map f, rest) := by
  unfold encListOf decListOf
  rw [List.append_assoc]
  simp only [devarint_varint xs.length (xs.flatMap enc ++ rest)]
  exact decListN_flatMap enc dec f h xs rest

lemma decPath_encPath (p : DPath) (rest : List Nat) :
    decPath (encPath p ++ rest) = some (p, rest) := by
  unfold decPath encPath
  have h := decListOf_encListOf encString decString id
    (fun a r => decString_encString a r) p rest
  rwa [List.map_id] at h

lemma decKind_encKind (k : NodeKind) (rest : List Nat) :
    decKind (encKind k ++ rest) = some (k, rest) := by
  cases k <;> rfl

lemma decOpt_devarint_varint : ∀ (o : Option Nat) (rest : List Nat),
    decOpt devarint (encOpt varint o ++ rest) = some (o, rest) := by
  intro o rest
  have h := decOpt_encOpt varint devarint id (fun a r => devarint_varint a r) o rest
  rwa [Option.map_id] at h

lemma decListOf_devarint_varint (xs : List Nat) (rest : List Nat) :
    decListOf devarint (encListOf varint xs ++ rest) = some (xs, rest) := by
  have h := decListOf_encListOf varint devarint id (fun a r => devarint_varint a r) xs rest
  rwa [List.map_id] at h

lemma decConfig_encConfig (c : CachedScanConfig) (rest : List Nat) :
    decConfig (encConfig c ++ rest) = some (c, rest) := by
  unfold encConfig decConfig
  simp only [List.append_assoc]
  simp only [decBool_encBool, decOpt_devarint_varint]

lemma decMeta_encMeta (m : CacheMetadata) (rest : List Nat) :
    decMeta (encMeta m ++ rest) = some (m, rest) := by
  unfold encMeta decMeta
  simp only [List.append_assoc]
  simp only [devarint_varint, decPath_encPath, decConfig_encConfig]

lemma decNode_encNode (n : TreeNode) (rest : List Nat) :
    decNode (encNode n ++ rest) = some (DiskTree.stripPath n, rest) := by
  unfold encNode decNode
  simp only [List.append_assoc]
  simp only [devarint_varint, decString_encString, decKind_encKind,
    decOpt_devarint_varint, decListOf_devarint_varint, decBool_encBool]
  rfl

lemma decTree_encTree (t : DiskTree) (rest : List Nat) :
    decTree (encTree t ++ rest) = some (DiskTree.stripPaths t, rest) := by
  unfold encTree decTree
  simp only [List.append_assoc]
  have hnode : ∀ (o : Option TreeNode) (r : List Nat),
      decOpt decNode (encOpt encNode o ++ r) = some (o.map DiskTree.stripPath, r) :=
    decOpt_encOpt encNode decNode DiskTree.stripPath (fun a r => decNode_encNode a r)
  simp only [decListOf_encListOf (encOpt encNode) (decOpt decNode)
    (Option.map DiskTree.stripPath) hnode, decPath_encPath]
  rfl

/-- load_cache accepts every save_cache output whose two payloads fit in
a u32 length field, and returns the saved metadata together with the
decoded (path-stripped) tree after rebuild_paths. -/
lemma load_cache_save_cache (t : DiskTree) (meta : CacheMetadata)
    (hm : (encMeta meta).length < 2 ^ 32) (ht : (encTree t).length < 2 ^ 32) :
    load_cache (save_cache t meta) =
      .ok (meta, (DiskTree.stripPaths t).rebuild_paths) := by
  set D := CACHE_MAGIC ++ le32 CACHE_VERSION ++ le32 (encMeta meta).length ++
    encMeta meta ++ le32 (encTree t).length ++ encTree t with hD
  have hfile : save_cache t meta = D ++ le32 (crc32 D) := rfl
  have hassoc : save_cache t meta = CACHE_MAGIC ++ (le32 CACHE_VERSION ++
      (le32 (encMeta meta).length ++ (encMeta meta ++ (le32 (encTree t).length ++
      (encTree t ++ le32 (crc32 D)))))) := by
    rw [hfile, hD]
    simp [List.append_assoc]
  have hDbytes : ByteOk D := byteOk_save_data t meta
  have hcrc_lt : crc32 D < 2 ^ 32 := crc32_lt D hDbytes
  have hDlen : D.length = 16 + (encMeta meta).length + (encTree t).length := by
    rw [hD]
    simp [CACHE_MAGIC, le32]
    omega
  have hlenfile : (save_cache t meta).length = D.length + 4 := by
    rw [hfile]
    simp [le32]
  have hnot20 : ¬ (save_cache t meta).length < 20 := by omega
  have hoff : (save_cache t meta).length - 4 = D.length := by omega
  have hstored : readU32 (save_cache t meta) D.length = crc32 D := by
    have h3 := readU32_append_le32 D (crc32 D) [] hcrc_lt
    rw [List.append_nil] at h3
    rw [hfile]
    exact h3
  have htake : (save_cache t meta).take D.length = D := by
    rw [hfile]
    exact List.take_left _ _
  have hmagic4 : (save_cache t meta).take 4 = CACHE_MAGIC := by
    rw [hassoc]
    exact List.take_left' rfl
  have hv : readU32 (save_cache t meta) 4 = CACHE_VERSION := by
    rw [hassoc]
    exact readU32_append_le32 CACHE_MAGIC CACHE_VERSION _ (by decide)
  have hml : readU32 (save_cache t meta) 8 = (encMeta meta).length := by
    rw [hassoc, ← List.append_assoc]
    exact readU32_append_le32 (CACHE_MAGIC ++ le32 CACHE_VERSION) (encMeta meta).length _ hm
  have htl : readU32 (save_cache t meta) (12 + (encMeta meta).length) = (encTree t).length := by
    rw [hassoc, ← List.append_assoc, ← List.append_assoc, ← List.append_assoc]
    have h := readU32_append_le32
      (CACHE_MAGIC ++ le32 CACHE_VERSION ++ le32 (encMeta meta).length ++ encMeta meta)
      (encTree t).length (encTree t ++ le32 (crc32 D)) ht
    rwa [show (CACHE_MAGIC ++ le32 CACHE_VERSION ++ le32 (encMeta meta).length ++
      encMeta meta).length = 12 + (encMeta meta).length from by
        simp [CACHE_MAGIC, le32]
        omega] at h
  have hdropmeta : ((save_cache t meta).drop 12).take (encMeta meta).length = encMeta meta := by
    rw [hassoc, ← List.append_assoc, ← List.append_assoc]
    rw [List.drop_left'
      (show (CACHE_MAGIC ++ le32 CACHE_VERSION ++ le32 (encMeta meta).length).length = 12 from
        by simp [CACHE_MAGIC, le32])]
    exact List.take_left _ _
  have hdroptree : ((save_cache t meta).drop (12 + (encMeta meta).length + 4)).take
      (encTree t).length = encTree t := by
    rw [hassoc, ← List.append_assoc, ← List.append_assoc, ← List.append_assoc,
      ← List.append_assoc]
    rw [List.drop_left'
      (show (CACHE_MAGIC ++ le32 CACHE_VERSION ++ le32 (encMeta meta).length ++ encMeta meta ++
          le32 (encTree t).length).length = 12 + (encMeta meta).length + 4 from
        by simp [CACHE_MAGIC, le32]; omega)]
    exact List.take_left _ _
  have hMdec : decMeta (encMeta meta) = some (meta, []) := by
    have h := decMeta_encMeta meta []
    rwa [List.append_nil] at h
  have hTdec : decTree (encTree t) = some (DiskTree.stripPaths t, []) := by
    have h := decTree_encTree t []
    rwa [List.append_nil] at h
  simp only [load_cache]
  rw [if_neg hnot20, hoff, hstored, htake]
  rw [if_neg (not_not_intro rfl)]
  rw [hmagic4, if_neg (not_not_intro rfl)]
  rw [hv, if_neg (not_not_intro rfl)]
  rw [hml, if_neg (by omega)]
  simp only [hdropmeta, hMdec]
  rw [htl, if_neg (by omega)]
  simp only [hdroptree, hTdec]

namespace DiskTree

/-- Consistency of one slot's stored path with the rebuild rule: a live
root carries root_path; every other live node has a live parent at a
smaller index and carries parent.path joined with its own name. -/
def nodePathOk (t : DiskTree) (i : Nat) : Bool :=
  match t.get i with
  | none => true
  | some nd =>
    if i = 0 then decide (nd.path = t.root_path)
    else
      match nd.parent with
      | none => false
      | some pid =>
        decide (pid < i) &&
          (match t.get pid with
           | some p => decide (nd.path = p.path ++ [nd.name])
           | none => false)

/-- Every slot of the tree is path-consistent. -/
def pathsConsistentOk (t : DiskTree) : Bool :=
  (List.range t.nodes.length).all (nodePathOk t)

lemma stripPaths_length (t : DiskTree) : (stripPaths t).nodes.length = t.nodes.length := by
  simp [stripPaths]

lemma get_stripPaths (t : DiskTree) (j : Nat) :
    (stripPaths t).get j = (t.get j).map stripPath := by
  unfold get stripPaths
  simp only [List.getElem?_map]
  cases t.nodes[j]? with
  | none => rfl
  | some o => cases o <;> rfl

lemma get_none_of_le (t : DiskTree) (j : Nat) (h : t.nodes.length ≤ j) : t.get j = none := by
  unfold get
  rw [List.getElem?_eq_none h]

lemma rebuildStep_length (t : DiskTree) (i : Nat) :
    (rebuildStep t i).nodes.length = t.nodes.length := by
  cases hg : t.get i with
  | none => simp only [rebuildStep, hg]
  | some nd =>
    cases hpar : nd.parent with
    | none => simp only [rebuildStep, hg, hpar]
    | some pid =>
      cases hp : t.get pid with
      | none => simp only [rebuildStep, hg, hpar, hp]
      | some p =>
        simp only [rebuildStep, hg, hpar, hp]
        exact setNode_length t i _

lemma rebuildStep_root_path (t : DiskTree) (i : Nat) :
    (rebuildStep t i).root_path = t.root_path := by
  cases hg : t.get i with
  | none => simp only [rebuildStep, hg]
  | some nd =>
    cases hpar : nd.parent with
    | none => simp only [rebuildStep, hg, hpar]
    | some pid =>
      cases hp : t.get pid with
      | none => simp only [rebuildStep, hg, hpar, hp]
      | some p =>
        simp only [rebuildStep, hg, hpar, hp]
        rfl

lemma foldl_rebuildStep_length (l : List Nat) (t : DiskTree) :
    (l.foldl rebuildStep t).nodes.length = t.nodes.length := by
  induction l generalizing t with
  | nil => rfl
  | cons a l ih => rw [List.foldl_cons, ih, rebuildStep_length]

lemma foldl_rebuildStep_root_path (l : List Nat) (t : DiskTree) :
    (l.foldl rebuildStep t).root_path = t.root_path := by
  induction l generalizing t with
  | nil => rfl
  | cons a l ih => rw [List.foldl_cons, ih, rebuildStep_root_path]

lemma modifyNode_root_path (t : DiskTree) (i : Nat) (f : TreeNode → TreeNode) :
    (t.modifyNode i f).root_path = t.root_path := by
  unfold modifyNode
  cases t.get i with
  | none => rfl
  | some nd => rfl

lemma nodePathOk_of_consistent (t : DiskTree) (h : pathsConsistentOk t = true)
    (i : Nat) (hi : i < t.nodes.length) : nodePathOk t i = true := by
  unfold pathsConsistentOk at h
  exact List.all_eq_true.mp h i (List.mem_range.mpr hi)

lemma nodePathOk_root (t : DiskTree) (nd : TreeNode) (hg : t.get 0 = some nd)
    (h : nodePathOk t 0 = true) : nd.path = t.root_path := by
  unfold nodePathOk at h
  simp only [hg, if_pos rfl] at h
  exact of_decide_eq_true h

lemma nodePathOk_child (t : DiskTree) (i : Nat) (nd : TreeNode) (hi : i ≠ 0)
    (hg : t.get i = some nd) (h : nodePathOk t i = true) :
    ∃ pid p, nd.parent = some pid ∧ pid < i ∧ t.get pid = some p ∧
      nd.path = p.path ++ [nd.name] := by
  unfold nodePathOk at h
  simp only [hg, if_neg hi] at h
  cases hpar : nd.parent with
  | none => rw [hpar] at h; exact absurd h (by simp)
  | some pid =>
    rw [hpar] at h
    rw [Bool.and_eq_true] at h
    obtain ⟨h1, h2⟩ := h
    cases hp : t.get pid with
    | none => rw [hp] at h2; exact absurd h2 (by simp)
    | some p =>
      rw [hp] at h2
      exact ⟨pid, p, rfl, of_decide_eq_true h1, hp, of_decide_eq_true h2⟩

lemma rebuild_fold_get (t : DiskTree) (h : pathsConsistentOk t = true) :
    ∀ (m j : Nat),
      ((List.range' 1 m).foldl rebuildStep
        ((stripPaths t).modifyNode 0
          (fun r => { r with path := (stripPaths t).root_path }))).get j =
      if j ≤ m then t.get j else (stripPaths t).get j := by
  intro m
  induction m with
  | zero =>
    intro j
    simp only [List.range', List.foldl_nil]
    by_cases hj : j = 0
    · subst hj
      rw [if_pos (le_refl 0)]
      cases hg : t.get 0 with
      | none =>
        have hs : (stripPaths t).get 0 = none := by
          rw [get_stripPaths, hg]
          rfl
        rw [modifyNode_dead _ _ _ hs, hs]
      | some r =>
        have hr : r.path = t.root_path :=
          nodePathOk_root t r hg
            (nodePathOk_of_consistent t h 0 (get_lt_length t 0 r hg))
        have hs : (stripPaths t).get 0 = some (stripPath r) := by
          rw [get_stripPaths, hg]
          rfl
        rw [get_modifyNode_self _ _ _ _ hs]
        show some { stripPath r with path := t.root_path } = some r
        rw [← hr]
        rfl
    · rw [get_modifyNode_ne _ _ _ _ hj, if_neg (by omega)]
  | succ m ih =>
    intro j
    rw [List.range'_concat, List.foldl_append, List.foldl_cons, List.foldl_nil]
    have hidx : 1 + 1 * m = m + 1 := by omega
    rw [hidx]
    set u := (List.range' 1 m).foldl rebuildStep
      ((stripPaths t).modifyNode 0
        (fun r => { r with path := (stripPaths t).root_path })) with hu
    cases hg : t.get (m + 1) with
    | none =>
      have hsu : u.get (m + 1) = none := by
        rw [ih (m + 1), if_neg (by omega), get_stripPaths, hg]
        rfl
      unfold rebuildStep
      simp only [hsu]
      rw [ih j]
      by_cases hj : j = m + 1
      · subst hj
        rw [if_neg (by omega), if_pos (by omega), get_stripPaths, hg]
        rfl
      · by_cases hjm : j ≤ m
        · rw [if_pos hjm, if_pos (by omega)]
        · rw [if_neg hjm, if_neg (by omega)]
    | some nd =>
      have hlen : m + 1 < t.nodes.length := get_lt_length t _ nd hg
      obtain ⟨pid, p, hpar, hpid, hp, hpath⟩ :=
        nodePathOk_child t (m + 1) nd (by omega) hg
          (nodePathOk_of_consistent t h (m + 1) hlen)
      have hsu : u.get (m + 1) = some (stripPath nd) := by
        rw [ih (m + 1), if_neg (by omega), get_stripPaths, hg]
        rfl
      have hpar' : (stripPath nd).parent = some pid := hpar
      have hup : u.get pid = some p := by
        rw [ih pid, if_pos (by omega)]
        exact hp
      have hulen : u.nodes.length = t.nodes.length := by
        rw [hu, foldl_rebuildStep_length, modifyNode_length, stripPaths_length]
      have hstep : rebuildStep u (m + 1) =
          u.setNode (m + 1) { nd with path := p.path ++ [nd.name] } := by
        unfold rebuildStep
        simp only [hsu, hpar', hup]
        simp only [stripPath, hpar]
      have hnd : ({ nd with path := p.path ++ [nd.name] } : TreeNode) = nd := by
        rw [← hpath]
      rw [hstep, hnd]
      by_cases hj : j = m + 1
      · subst hj
        rw [get_setNode_self u (m + 1) nd (by omega), if_pos (le_refl _), hg]
      · rw [get_setNode_ne u _ _ _ hj, ih j]
        by_cases hjm : j ≤ m
        · rw [if_pos hjm, if_pos (by omega)]
        · rw [if_neg hjm, if_neg (by omega)]

lemma tree_ext (a b : DiskTree) (hlen : a.nodes.length = b.nodes.length)
    (hget : ∀ j, a.get j = b.get j) (hroot : a.root_path = b.root_path) : a = b := by
  have hn : a.nodes = b.nodes := by
    apply List.ext_getElem?
    intro j
    by_cases hj : j < a.nodes.length
    · have hj' : j < b.nodes.length := by omega
      have hh := hget j
      unfold get at hh
      rw [List.getElem?_eq_getElem hj, List.getElem?_eq_getElem hj'] at hh ⊢
      cases ha : a.nodes[j] with
      | none =>
        cases hb : b.nodes[j] with
        | none => rfl
        | some y =>
          rw [ha, hb] at hh
          simp at hh
      | some x =>
        cases hb : b.nodes[j] with
        | none =>
          rw [ha, hb] at hh
          simp at hh
        | some y =>
          rw [ha, hb] at hh
          simp only [Option.some.injEq] at hh
          rw [hh]
    · rw [List.getElem?_eq_none (by omega : a.nodes.length ≤ j),
        List.getElem?_eq_none (by omega : b.nodes.length ≤ j)]
  have hmk : ({ nodes := a.nodes, root_path := a.root_path } : DiskTree) =
      { nodes := b.nodes, root_path := b.root_path } := by
    rw [hn, hroot]
  exact hmk

/-- Rebuilding paths on the stripped copy of a path-consistent tree
restores the tree exactly. -/
lemma rebuild_paths_stripPaths (t : DiskTree) (h : pathsConsistentOk t = true) :
    (stripPaths t).rebuild_paths = t := by
  apply tree_ext
  · simp only [rebuild_paths]
    rw [foldl_rebuildStep_length, modifyNode_length, stripPaths_length]
  · intro j
    simp only [rebuild_paths]
    rw [stripPaths_length, rebuild_fold_get t h (t.nodes.length - 1) j]
    by_cases hj : j ≤ t.nodes.length - 1
    · rw [if_pos hj]
    · rw [if_neg hj, get_stripPaths, get_none_of_le t j (by omega)]
      rfl
  · simp only [rebuild_paths]
    rw [foldl_rebuildStep_root_path, modifyNode_root_path]
    rfl

end DiskTree

/-- C4: cache round-trip: for every metadata record and every tree whose
stored node paths are consistent (a live root carries root_path and
every other live node carries its parent's path joined with its own
name — exactly the form the claim's parenthetical describes) and whose
encoded metadata and tree payloads each fit the u32 length field of the
cache framing, load_cache applied to save_cache's output succeeds and
returns the saved metadata unchanged together with a tree equal to the
original: node paths are omitted from the encoding, and the
rebuild_paths call performed during load gives the root root_path and
every other live node parent.path joined with its name, which is its
original path. -/
theorem cache_round_trip (t : DiskTree) (meta : CacheMetadata)
    (hm : (encMeta meta).length < 2 ^ 32) (ht : (encTree t).length < 2 ^ 32)
    (hp : DiskTree.pathsConsistentOk t = true) :
    load_cache (save_cache t meta) = .ok (meta, t) := by
  rw [load_cache_save_cache t meta hm ht, DiskTree.rebuild_paths_stripPaths t hp]

/-- A three-node tree with consistent paths for the round-trip witness. -/
def treeC4 : DiskTree :=
  ((((DiskTree.new ["", "home"]).add_node "src" NodeKind.Directory
      ["", "home", "src"] 0).1).add_node
    "main.rs" NodeKind.File ["", "home", "src", "main.rs"] 1).1

/-- Metadata for the round-trip witness. -/
def metaC4 : CacheMetadata :=
  { version := 1, root_path := ["", "home"], scan_time := 11, root_mtime := 42,
    total_size := 100, node_count := 3,
    config := { follow_symlinks := false, same_filesystem := true, max_depth := some 4 } }

/-- Witness for cache_round_trip: a concrete three-node tree and
metadata record survive save_cache followed by load_cache unchanged. -/
theorem cache_round_trip_witness :
    ((encMeta metaC4).length < 2 ^ 32 ∧ (encTree treeC4).length < 2 ^ 32 ∧
      DiskTree.pathsConsistentOk treeC4 = true) ∧
    load_cache (save_cache treeC4 metaC4) = .ok (metaC4, treeC4) :=
  ⟨⟨by decide, by decide, by decide⟩,
    cache_round_trip treeC4 metaC4 (by decide) (by decide) (by decide)⟩

end Dux
